import Mathlib

/-!
# Verification of the identity-reconciliation service

Shallow embedding of `src/services/identify.ts`: the contact data model,
the input normalizer, the cluster-resolution (BFS fixpoint) loop, primary
election and demotion, secondary creation, the response projector, and the
serializable-retry wrapper.  The store is modelled as a list of contact
rows in insertion order together with the next auto-assigned id; `findMany
.. orderBy createdAt asc` is modelled as a stable insertion sort by
`createdAt` (ties keep store order, matching the stable small-array sort of
the JS runtime and insertion-ordered scans of the database).
-/

namespace IdentitySvc

inductive Precedence where
  | primary
  | secondary
deriving DecidableEq, Repr

structure Contact where
  id : Nat
  email : Option String
  phoneNumber : Option String
  linkPrecedence : Precedence
  linkedId : Option Nat
  createdAt : Nat
  deletedAt : Option Nat
deriving DecidableEq, Repr

instance : Inhabited Contact :=
  ⟨{ id := 0, email := none, phoneNumber := none, linkPrecedence := .primary,
     linkedId := none, createdAt := 0, deletedAt := none }⟩

/-- The contact store: rows in insertion order plus the next auto id. -/
structure Store where
  contacts : List Contact
  nextId : Nat
deriving DecidableEq, Repr

structure IdRequest where
  email : Option String
  phoneNumber : Option String
deriving DecidableEq, Repr

structure IdResponse where
  primaryContatctId : Nat
  emails : List String
  phoneNumbers : List String
  secondaryContactIds : List Nat
deriving DecidableEq, Repr

/-! ## Normalizer (`normalizeEmail` / `normalizePhone`) -/

/-- Whitespace characters relevant to JS `\s` / `trim` (common subset). -/
def isSpaceChar (c : Char) : Bool :=
  c = ' ' || c = '\t' || c = '\n' || c = '\r' || c = '\x0b' || c = '\x0c'

/-- Characters stripped from phone numbers: whitespace, `-`, `.`, `(`, `)`. -/
def isStrippedChar (c : Char) : Bool :=
  isSpaceChar c || c = '-' || c = '.' || c = '(' || c = ')'

def trimChars (l : List Char) : List Char :=
  ((l.dropWhile isSpaceChar).reverse.dropWhile isSpaceChar).reverse

/-- Normalize email: lowercase and trim; empty result is treated as absent. -/
def normalizeEmail : Option String → Option String
  | none => none
  | some s =>
    let t := String.mk (trimChars (s.data.map Char.toLower))
    if t = "" then none else some t

/-- Normalize phone: strip whitespace and `-.()`; empty result is absent. -/
def normalizePhone : Option String → Option String
  | none => none
  | some s =>
    let t := String.mk (s.data.filter (fun c => !isStrippedChar c))
    if t = "" then none else some t

/-! ## Stable sort by `createdAt` (model of `orderBy createdAt asc` and of
the stable JS array sort used for primary election). -/

/-- Insert a contact after every element whose `createdAt` is `≤` its own
(stable insertion: a newly discovered row goes after equal timestamps). -/
def insCreated (c : Contact) : List Contact → List Contact
  | [] => [c]
  | d :: l => if c.createdAt < d.createdAt then c :: d :: l else d :: insCreated c l

def sortCreated (l : List Contact) : List Contact :=
  l.foldl (fun acc c => insCreated c acc) []

/-- Numeric ascending sort for `secondaryContactIds`. -/
def insNat (n : Nat) : List Nat → List Nat
  | [] => [n]
  | m :: l => if n < m then n :: m :: l else m :: insNat n l

def sortNat (l : List Nat) : List Nat :=
  l.foldl (fun acc n => insNat n acc) []

/-! ## Cluster resolver -/

/-- The seed `findMany` predicate: non-deleted and matching the given
normalized email or phone (absent sides contribute no condition). -/
def matchesInput (e p : Option String) (c : Contact) : Prop :=
  (e ≠ none ∧ c.email = e) ∨ (p ≠ none ∧ c.phoneNumber = p)

instance (e p : Option String) (c : Contact) : Decidable (matchesInput e p c) := by
  unfold matchesInput; exact inferInstance

/-- Direct matches of the request (`findMany` with `OR` on email/phone). -/
def seedMatches (contacts : List Contact) (e p : Option String) : List Contact :=
  sortCreated (contacts.filter (fun c => decide (c.deletedAt = none ∧ matchesInput e p c)))

/-- The expansion `findMany` predicate: matches any of the group's stored
email or phone values (raw string equality, as in the source query). -/
def matchesValues (es ps : List String) (c : Contact) : Prop :=
  (∃ v ∈ es, c.email = some v) ∨ (∃ v ∈ ps, c.phoneNumber = some v)

instance (es ps : List String) (c : Contact) : Decidable (matchesValues es ps c) := by
  unfold matchesValues; exact inferInstance

/-- One round of the BFS expansion: non-deleted contacts not already in the
group whose email or phone occurs among the group's values. -/
def expandStep (contacts g : List Contact) : List Contact :=
  sortCreated (contacts.filter (fun c => decide
    (c.deletedAt = none ∧ c.id ∉ g.map Contact.id ∧
      matchesValues (g.filterMap Contact.email) (g.filterMap Contact.phoneNumber) c)))

/-- The `while (true)` expansion loop, fuelled (the store is finite; the
fuel `contacts.length` is shown sufficient to reach the fixpoint). -/
def expandLoop : Nat → List Contact → List Contact → List Contact
  | 0, _, g => g
  | fuel + 1, contacts, g =>
    let next := expandStep contacts g
    if next = [] then g else expandLoop fuel contacts (g ++ next)

/-- The resolved group: seed matches expanded to the fixpoint. -/
def resolveGroup (contacts : List Contact) (e p : Option String) : List Contact :=
  expandLoop contacts.length contacts (seedMatches contacts e p)

/-! ## Primary arbiter -/

/-- The linear scan `if (c.createdAt < primary.createdAt) primary = c`. -/
def scanMin (p : Contact) : List Contact → Contact
  | [] => p
  | c :: l => scanMin (if c.createdAt < p.createdAt then c else p) l

/-- `group.sort(byCreatedAt)[0]` refined by the strict-`<` scan: the first
minimal-`createdAt` element of the stably sorted group. -/
def electPrimary (g : List Contact) : Contact :=
  match sortCreated g with
  | [] => default
  | h :: t => scanMin h (h :: t)

/-- Group members other than the elected one still marked primary. -/
def otherPrimaries (g : List Contact) (prim : Contact) : List Contact :=
  g.filter (fun c => decide (c.id ≠ prim.id ∧ c.linkPrecedence = .primary))

/-- `updateMany`: set the rows with the given ids to secondary linked to `pid`. -/
def demoteIds (contacts : List Contact) (ids : List Nat) (pid : Nat) : List Contact :=
  contacts.map (fun c =>
    if c.id ∈ ids then { c with linkPrecedence := .secondary, linkedId := some pid } else c)

/-- The group rooted at the primary: itself plus rows with `linkedId = pid`. -/
def rootedGroup (contacts : List Contact) (pid : Nat) : List Contact :=
  sortCreated (contacts.filter (fun c => decide
    (c.deletedAt = none ∧ (c.id = pid ∨ c.linkedId = some pid))))

/-! ## Secondary writer -/

def shouldCreateSecondary (e p : Option String) (existE existP : List String) : Prop :=
  (∃ v, e = some v ∧ v ∉ existE) ∨ (∃ v, p = some v ∧ v ∉ existP)

instance (e p : Option String) (existE existP : List String) :
    Decidable (shouldCreateSecondary e p existE existP) := by
  unfold shouldCreateSecondary
  exact inferInstance

/-! ## Response projector -/

/-- Push values not yet seen, remembering them (the dedup loops). -/
def dedupKeepFirst (seen : List String) : List String → List String
  | [] => []
  | v :: l => if v ∈ seen then dedupKeepFirst seen l else v :: dedupKeepFirst (v :: seen) l

/-- The email list: the primary's own email first (if set), then the other
contacts' emails, re-sorted by `createdAt` and deduplicated left to right. -/
def projectValues (primVal : Option String) (finalGroup : List Contact)
    (get : Contact → Option String) : List String :=
  let seen0 : List String := match primVal with | some v => [v] | none => []
  let others := finalGroup.filter (fun c => decide (∃ v, get c = some v ∧ v ∉ seen0))
  seen0 ++ dedupKeepFirst seen0 ((sortCreated others).filterMap get)

def projectSecondaryIds (finalGroup : List Contact) (pid : Nat) : List Nat :=
  sortNat ((finalGroup.filter (fun c => decide
    (c.linkPrecedence = .secondary ∧ c.linkedId = some pid))).map Contact.id)

/-! ## The transaction body (`identifyInTransaction`) -/

def newContact (i : Nat) (e p : Option String) (prec : Precedence)
    (lid : Option Nat) (now : Nat) : Contact :=
  { id := i, email := e, phoneNumber := p, linkPrecedence := prec,
    linkedId := lid, createdAt := now, deletedAt := none }

/-- The elected primary of the resolved group. -/
def electOf (contacts : List Contact) (e p : Option String) : Contact :=
  electPrimary (resolveGroup contacts e p)

/-- The store rows after the demotion `updateMany`. -/
def demotedOf (contacts : List Contact) (e p : Option String) : List Contact :=
  demoteIds contacts
    ((otherPrimaries (resolveGroup contacts e p) (electOf contacts e p)).map Contact.id)
    (electOf contacts e p).id

/-- Normalized emails present in the re-fetched group rooted at the primary. -/
def existEOf (contacts : List Contact) (e p : Option String) : List String :=
  (rootedGroup (demotedOf contacts e p) (electOf contacts e p).id).filterMap
    (fun c => normalizeEmail c.email)

/-- Normalized phones present in the re-fetched group rooted at the primary. -/
def existPOf (contacts : List Contact) (e p : Option String) : List String :=
  (rootedGroup (demotedOf contacts e p) (electOf contacts e p).id).filterMap
    (fun c => normalizePhone c.phoneNumber)

/-- Whether the request introduces a new value and a secondary is persisted. -/
def doCreateOf (contacts : List Contact) (e p : Option String) : Prop :=
  shouldCreateSecondary e p (existEOf contacts e p) (existPOf contacts e p)

instance (contacts : List Contact) (e p : Option String) :
    Decidable (doCreateOf contacts e p) := by
  unfold doCreateOf; exact inferInstance

/-- The new secondary row persisted when the request has new information. -/
def newSecondary (s : Store) (now : Nat) (e p : Option String) : Contact :=
  newContact s.nextId e p .secondary (some (electOf s.contacts e p).id) now

/-- Store rows at the end of the merge branch. -/
def contacts2Of (s : Store) (now : Nat) (e p : Option String) : List Contact :=
  if doCreateOf s.contacts e p then demotedOf s.contacts e p ++ [newSecondary s now e p]
  else demotedOf s.contacts e p

def nextId2Of (s : Store) (e p : Option String) : Nat :=
  if doCreateOf s.contacts e p then s.nextId + 1 else s.nextId

/-- The final group re-fetched for the response. -/
def finalGroupOf (s : Store) (now : Nat) (e p : Option String) : List Contact :=
  rootedGroup (contacts2Of s now e p) (electOf s.contacts e p).id

/-- `freshPrimary`: the elected row looked up in the final group. -/
def freshOf (s : Store) (now : Nat) (e p : Option String) : Contact :=
  ((finalGroupOf s now e p).find?
    (fun c => decide (c.id = (electOf s.contacts e p).id))).getD (electOf s.contacts e p)

/-- The merge branch of `identifyInTransaction` (at least one direct match). -/
def identifyMerge (s : Store) (now : Nat) (e p : Option String) : IdResponse × Store :=
  ({ primaryContatctId := (freshOf s now e p).id,
     emails := projectValues (freshOf s now e p).email (finalGroupOf s now e p) Contact.email,
     phoneNumbers :=
       projectValues (freshOf s now e p).phoneNumber (finalGroupOf s now e p)
         Contact.phoneNumber,
     secondaryContactIds := projectSecondaryIds (finalGroupOf s now e p) (freshOf s now e p).id },
   { contacts := contacts2Of s now e p, nextId := nextId2Of s e p })

/-- The no-match branch: create a fresh primary and return immediately. -/
def identifyNoMatch (s : Store) (now : Nat) (e p : Option String) : IdResponse × Store :=
  ({ primaryContatctId := s.nextId,
     emails := match e with | some v => [v] | none => [],
     phoneNumbers := match p with | some v => [v] | none => [],
     secondaryContactIds := [] },
   { contacts := s.contacts ++ [newContact s.nextId e p .primary none now],
     nextId := s.nextId + 1 })

def identifyTx (s : Store) (now : Nat) (input : IdRequest) : IdResponse × Store :=
  let e := normalizeEmail input.email
  let p := normalizePhone input.phoneNumber
  if seedMatches s.contacts e p = [] then identifyNoMatch s now e p
  else identifyMerge s now e p

/-! ## The coordinator (`identifyContact`): validation and retry loop -/

inductive IdError where
  | invalidInput
  | conflict
  | storeError
deriving DecidableEq, Repr

/-- Environment-injected outcome of one serializable transaction attempt. -/
inductive AttemptOutcome where
  | ok
  | conflictErr
  | otherErr
deriving DecidableEq, Repr

structure RunTrace where
  attempts : Nat
  delays : List Nat
  result : Except IdError IdResponse
  finalStore : Store
deriving Repr

def MAX_SERIALIZABLE_RETRIES : Nat := 3

/-- The `for (attempt = 1; ...)` loop; a failed attempt rolls back, so the
store passed to each attempt is the original one. -/
def attemptLoop (o : Nat → AttemptOutcome) (s : Store) (now : Nat)
    (input : IdRequest) : Nat → Nat → List Nat → RunTrace
  | attempt, remaining + 1, delays =>
    match o attempt with
    | .ok =>
      let r := identifyTx s now input
      { attempts := attempt, delays := delays, result := .ok r.1, finalStore := r.2 }
    | .otherErr =>
      { attempts := attempt, delays := delays, result := .error .storeError, finalStore := s }
    | .conflictErr =>
      if attempt < MAX_SERIALIZABLE_RETRIES then
        attemptLoop o s now input (attempt + 1) remaining (delays ++ [20 * attempt])
      else
        { attempts := attempt, delays := delays, result := .error .conflict, finalStore := s }
  | attempt, 0, delays =>
    { attempts := attempt, delays := delays, result := .error .conflict, finalStore := s }

/-- `identifyContact`: validate, then run up to three serializable attempts. -/
def identifyContact (o : Nat → AttemptOutcome) (s : Store) (now : Nat)
    (input : IdRequest) : RunTrace :=
  if normalizeEmail input.email = none ∧ normalizePhone input.phoneNumber = none then
    { attempts := 0, delays := [], result := .error .invalidInput, finalStore := s }
  else
    attemptLoop o s now input 1 MAX_SERIALIZABLE_RETRIES []


/-! ## Lemmas about the stable sort and election -/

def leCreated (a b : Contact) : Prop := a.createdAt ≤ b.createdAt

theorem mem_insCreated {c x : Contact} {l : List Contact} :
    x ∈ insCreated c l ↔ x = c ∨ x ∈ l := by
  induction l with
  | nil => simp [insCreated]
  | cons d l ih =>
    by_cases h : c.createdAt < d.createdAt
    · simp [insCreated, h, List.mem_cons]
    · simp only [insCreated, if_neg h, List.mem_cons, ih]
      tauto

theorem insCreated_perm (c : Contact) (l : List Contact) :
    (insCreated c l).Perm (c :: l) := by
  induction l with
  | nil => simp [insCreated]
  | cons d l ih =>
    by_cases h : c.createdAt < d.createdAt
    · simp [insCreated, h]
    · simp only [insCreated, if_neg h]
      exact (ih.cons d).trans (List.Perm.swap c d l)

theorem foldl_insCreated_perm (l acc : List Contact) :
    (l.foldl (fun a c => insCreated c a) acc).Perm (acc ++ l) := by
  induction l generalizing acc with
  | nil => simp
  | cons c l ih =>
    simp only [List.foldl_cons]
    refine (ih (insCreated c acc)).trans ?_
    refine (List.Perm.append_right l (insCreated_perm c acc)).trans ?_
    exact (List.perm_middle).symm

theorem sortCreated_perm (l : List Contact) : (sortCreated l).Perm l := by
  simpa using foldl_insCreated_perm l []

theorem mem_sortCreated {x : Contact} {l : List Contact} :
    x ∈ sortCreated l ↔ x ∈ l :=
  (sortCreated_perm l).mem_iff

theorem insCreated_pairwise {c : Contact} {l : List Contact}
    (h : l.Pairwise leCreated) : (insCreated c l).Pairwise leCreated := by
  induction l with
  | nil => simp [insCreated, List.pairwise_singleton]
  | cons d l ih =>
    rcases List.pairwise_cons.mp h with ⟨hd, hl⟩
    by_cases hc : c.createdAt < d.createdAt
    · simp only [insCreated, if_pos hc]
      refine List.pairwise_cons.mpr ⟨?_, h⟩
      intro x hx
      rcases List.mem_cons.mp hx with rfl | hx
      · exact Nat.le_of_lt hc
      · exact Nat.le_trans (Nat.le_of_lt hc) (hd x hx)
    · simp only [insCreated, if_neg hc]
      refine List.pairwise_cons.mpr ⟨?_, ih hl⟩
      intro x hx
      rcases mem_insCreated.mp hx with rfl | hx
      · exact Nat.le_of_not_lt hc
      · exact hd x hx

theorem sortCreated_pairwise (l : List Contact) :
    (sortCreated l).Pairwise leCreated := by
  have aux : ∀ (l acc : List Contact), acc.Pairwise leCreated →
      (l.foldl (fun a c => insCreated c a) acc).Pairwise leCreated := by
    intro l
    induction l with
    | nil => intro acc h; simpa using h
    | cons c l ih =>
      intro acc h
      simpa using ih (insCreated c acc) (insCreated_pairwise h)
  simpa [sortCreated] using aux l [] List.Pairwise.nil

theorem insCreated_eq_append {c : Contact} {l : List Contact}
    (h : ∀ x ∈ l, x.createdAt ≤ c.createdAt) : insCreated c l = l ++ [c] := by
  induction l with
  | nil => simp [insCreated]
  | cons d l ih =>
    have hd : ¬ c.createdAt < d.createdAt :=
      Nat.not_lt.mpr (h d (List.mem_cons_self d l))
    simp only [insCreated, if_neg hd, List.cons_append, List.cons.injEq, true_and]
    exact ih (fun x hx => h x (List.mem_cons_of_mem d hx))

theorem sortCreated_eq_self {l : List Contact} (h : l.Pairwise leCreated) :
    sortCreated l = l := by
  have aux : ∀ (l acc : List Contact), (acc ++ l).Pairwise leCreated →
      l.foldl (fun a c => insCreated c a) acc = acc ++ l := by
    intro l
    induction l with
    | nil => intro acc _; simp
    | cons c l ih =>
      intro acc h
      have hacc : ∀ x ∈ acc, x.createdAt ≤ c.createdAt := by
        intro x hx
        have := (List.pairwise_append.mp h).2.2 x hx c (List.mem_cons_self c l)
        exact this
      simp only [List.foldl_cons, insCreated_eq_append hacc]
      have : (acc ++ [c]) ++ l = acc ++ c :: l := by simp
      rw [ih (acc ++ [c]) (by rw [this]; exact h), this]
  simpa [sortCreated] using aux l [] (by simpa using h)

theorem insCreated_map {f : Contact → Contact}
    (hf : ∀ c, (f c).createdAt = c.createdAt) (c : Contact) (l : List Contact) :
    insCreated (f c) (l.map f) = (insCreated c l).map f := by
  induction l with
  | nil => simp [insCreated]
  | cons d l ih =>
    by_cases h : c.createdAt < d.createdAt
    · simp [insCreated, h, hf]
    · simp [insCreated, h, hf, ih]

theorem sortCreated_map {f : Contact → Contact}
    (hf : ∀ c, (f c).createdAt = c.createdAt) (l : List Contact) :
    sortCreated (l.map f) = (sortCreated l).map f := by
  have aux : ∀ (l acc : List Contact),
      (l.map f).foldl (fun a c => insCreated c a) (acc.map f) =
        (l.foldl (fun a c => insCreated c a) acc).map f := by
    intro l
    induction l with
    | nil => intro acc; simp
    | cons c l ih =>
      intro acc
      simp only [List.map_cons, List.foldl_cons, insCreated_map hf, ih]
  simpa [sortCreated] using aux l []

theorem scanMin_mem (p : Contact) (l : List Contact) :
    scanMin p l = p ∨ scanMin p l ∈ l := by
  induction l generalizing p with
  | nil => simp [scanMin]
  | cons c l ih =>
    simp only [scanMin]
    by_cases h : c.createdAt < p.createdAt
    · simp only [if_pos h]
      rcases ih c with h1 | h1
      · exact Or.inr (by simp [h1])
      · exact Or.inr (List.mem_cons_of_mem c h1)
    · simp only [if_neg h]
      rcases ih p with h1 | h1
      · exact Or.inl h1
      · exact Or.inr (List.mem_cons_of_mem c h1)

theorem scanMin_le (p : Contact) (l : List Contact) :
    (scanMin p l).createdAt ≤ p.createdAt ∧
      ∀ x ∈ l, (scanMin p l).createdAt ≤ x.createdAt := by
  induction l generalizing p with
  | nil => simp [scanMin]
  | cons c l ih =>
    simp only [scanMin]
    by_cases h : c.createdAt < p.createdAt
    · simp only [if_pos h]
      rcases ih c with ⟨h1, h2⟩
      refine ⟨Nat.le_trans h1 (Nat.le_of_lt h), ?_⟩
      intro x hx
      rcases List.mem_cons.mp hx with rfl | hx
      · exact h1
      · exact h2 x hx
    · simp only [if_neg h]
      rcases ih p with ⟨h1, h2⟩
      refine ⟨h1, ?_⟩
      intro x hx
      rcases List.mem_cons.mp hx with rfl | hx
      · exact Nat.le_trans h1 (Nat.le_of_not_lt h)
      · exact h2 x hx

theorem electPrimary_mem {g : List Contact} (h : g ≠ []) : electPrimary g ∈ g := by
  unfold electPrimary
  cases hs : sortCreated g with
  | nil =>
    have hp := sortCreated_perm g
    rw [hs] at hp
    exact absurd hp.symm.eq_nil h
  | cons a t =>
    show scanMin a (a :: t) ∈ g
    have hmem : scanMin a (a :: t) ∈ (a :: t) := by
      rcases scanMin_mem a (a :: t) with h1 | h1
      · rw [h1]; exact List.mem_cons_self a t
      · exact h1
    exact mem_sortCreated.mp (by rw [hs]; exact hmem)

theorem electPrimary_min {g : List Contact} (h : g ≠ []) :
    ∀ c ∈ g, (electPrimary g).createdAt ≤ c.createdAt := by
  intro c hc
  unfold electPrimary
  cases hs : sortCreated g with
  | nil =>
    have hp := sortCreated_perm g
    rw [hs] at hp
    exact absurd hp.symm.eq_nil h
  | cons a t =>
    show (scanMin a (a :: t)).createdAt ≤ c.createdAt
    have hc2 : c ∈ (a :: t) := by rw [← hs]; exact mem_sortCreated.mpr hc
    exact (scanMin_le a (a :: t)).2 c hc2



/-! ## Connectivity: the implicit graph of shared stored values -/

/-- Two contacts share a stored identifying value (raw string equality, as
in the expansion queries). -/
def sharesValue (a b : Contact) : Prop :=
  (a.email ≠ none ∧ a.email = b.email) ∨
    (a.phoneNumber ≠ none ∧ a.phoneNumber = b.phoneNumber)

instance (a b : Contact) : Decidable (sharesValue a b) := by
  unfold sharesValue; exact inferInstance

/-- One connectivity step into a live row of the store. -/
def connStep (contacts : List Contact) (a b : Contact) : Prop :=
  b ∈ contacts ∧ b.deletedAt = none ∧ sharesValue a b

/-- Transitive reachability by shared values through live store rows. -/
def reaches (contacts : List Contact) : Contact → Contact → Prop :=
  Relation.ReflTransGen (connStep contacts)

theorem sharesValue_symm {a b : Contact} (h : sharesValue a b) : sharesValue b a := by
  rcases h with ⟨hne, he⟩ | ⟨hne, hp⟩
  · exact Or.inl ⟨by rw [← he]; exact hne, he.symm⟩
  · exact Or.inr ⟨by rw [← hp]; exact hne, hp.symm⟩

theorem reaches_refl {contacts : List Contact} (a : Contact) : reaches contacts a a :=
  Relation.ReflTransGen.refl

theorem reaches_trans {contacts : List Contact} {a b c : Contact}
    (h1 : reaches contacts a b) (h2 : reaches contacts b c) : reaches contacts a c :=
  Relation.ReflTransGen.trans h1 h2

/-- The endpoint of a nonempty reachability path is a live store row. -/
theorem reaches_target {contacts : List Contact} {a b : Contact}
    (h : reaches contacts a b) : b = a ∨ (b ∈ contacts ∧ b.deletedAt = none) := by
  induction h with
  | refl => exact Or.inl rfl
  | tail _ step _ => exact Or.inr ⟨step.1, step.2.1⟩

/-- Reachability is symmetric once the source is itself a live store row. -/
theorem reaches_symm {contacts : List Contact} {a b : Contact}
    (ha : a ∈ contacts) (hlive : a.deletedAt = none)
    (h : reaches contacts a b) : reaches contacts b a := by
  induction h with
  | refl => exact Relation.ReflTransGen.refl
  | @tail b c hab step ih =>
    have hb : b ∈ contacts ∧ b.deletedAt = none := by
      rcases reaches_target hab with rfl | hb
      · exact ⟨ha, hlive⟩
      · exact hb
    exact Relation.ReflTransGen.head ⟨hb.1, hb.2, sharesValue_symm step.2.2⟩ ih

/-- Reachability only grows when the store list is extended. -/
theorem reaches_append {contacts l2 : List Contact} {a b : Contact}
    (h : reaches contacts a b) : reaches (contacts ++ l2) a b := by
  induction h with
  | refl => exact Relation.ReflTransGen.refl
  | tail _ step ih =>
    exact Relation.ReflTransGen.tail ih
      ⟨List.mem_append_left l2 step.1, step.2.1, step.2.2⟩

/-! ## Membership characterizations of the queries -/

theorem mem_seedMatches {contacts : List Contact} {e p : Option String} {c : Contact} :
    c ∈ seedMatches contacts e p ↔
      c ∈ contacts ∧ c.deletedAt = none ∧ matchesInput e p c := by
  unfold seedMatches
  rw [mem_sortCreated, List.mem_filter, decide_eq_true_eq]

theorem mem_expandStep {contacts g : List Contact} {c : Contact} :
    c ∈ expandStep contacts g ↔
      c ∈ contacts ∧ c.deletedAt = none ∧ c.id ∉ g.map Contact.id ∧
        matchesValues (g.filterMap Contact.email) (g.filterMap Contact.phoneNumber) c := by
  unfold expandStep
  rw [mem_sortCreated, List.mem_filter, decide_eq_true_eq]

theorem mem_rootedGroup {contacts : List Contact} {pid : Nat} {c : Contact} :
    c ∈ rootedGroup contacts pid ↔
      c ∈ contacts ∧ c.deletedAt = none ∧ (c.id = pid ∨ c.linkedId = some pid) := by
  unfold rootedGroup
  rw [mem_sortCreated, List.mem_filter, decide_eq_true_eq]

theorem mem_otherPrimaries {g : List Contact} {prim c : Contact} :
    c ∈ otherPrimaries g prim ↔
      c ∈ g ∧ c.id ≠ prim.id ∧ c.linkPrecedence = .primary := by
  unfold otherPrimaries
  rw [List.mem_filter, decide_eq_true_eq]

/-- A contact found by an expansion round shares a value with the group. -/
theorem expandStep_shares {contacts g : List Contact} {c : Contact}
    (h : c ∈ expandStep contacts g) : ∃ a ∈ g, sharesValue a c := by
  rcases mem_expandStep.mp h with ⟨-, -, -, hm | hm⟩
  · rcases hm with ⟨v, hv, hc⟩
    rcases List.mem_filterMap.mp hv with ⟨a, ha, hae⟩
    exact ⟨a, ha, Or.inl ⟨by simp [hae], by rw [hae, hc]⟩⟩
  · rcases hm with ⟨v, hv, hc⟩
    rcases List.mem_filterMap.mp hv with ⟨a, ha, hae⟩
    exact ⟨a, ha, Or.inr ⟨by simp [hae], by rw [hae, hc]⟩⟩

/-- Conversely, a live row outside the group sharing a value with a group
member is picked up by the next expansion round. -/
theorem shares_mem_expandStep {contacts g : List Contact} {a b : Contact}
    (ha : a ∈ g) (hb : b ∈ contacts) (hlive : b.deletedAt = none)
    (hid : b.id ∉ g.map Contact.id) (hs : sharesValue a b) :
    b ∈ expandStep contacts g := by
  refine mem_expandStep.mpr ⟨hb, hlive, hid, ?_⟩
  rcases hs with ⟨hne, he⟩ | ⟨hne, hp⟩
  · rcases ho : a.email with _ | v
    · rw [ho] at hne; exact absurd rfl hne
    · exact Or.inl ⟨v, List.mem_filterMap.mpr ⟨a, ha, ho⟩, by rw [← he, ho]⟩
  · rcases ho : a.phoneNumber with _ | v
    · rw [ho] at hne; exact absurd rfl hne
    · exact Or.inr ⟨v, List.mem_filterMap.mpr ⟨a, ha, ho⟩, by rw [← hp, ho]⟩

/-! ## Invariants of the expansion loop -/

/-- Elements of the group come from the live store. -/
def subLive (contacts g : List Contact) : Prop :=
  ∀ c ∈ g, c ∈ contacts ∧ c.deletedAt = none

theorem seedMatches_subLive (contacts : List Contact) (e p : Option String) :
    subLive contacts (seedMatches contacts e p) := by
  intro c hc
  rcases mem_seedMatches.mp hc with ⟨h1, h2, -⟩
  exact ⟨h1, h2⟩

theorem expandStep_subLive (contacts g : List Contact) :
    subLive contacts (expandStep contacts g) := by
  intro c hc
  rcases mem_expandStep.mp hc with ⟨h1, h2, -⟩
  exact ⟨h1, h2⟩

theorem subLive_append {contacts g1 g2 : List Contact}
    (h1 : subLive contacts g1) (h2 : subLive contacts g2) :
    subLive contacts (g1 ++ g2) := by
  intro c hc
  rcases List.mem_append.mp hc with hc | hc
  · exact h1 c hc
  · exact h2 c hc

/-- Ids of a sorted filter of the store are deduplicated if store ids are. -/
theorem ids_nodup_of_filter {contacts : List Contact} {q : Contact → Bool}
    (h : (contacts.map Contact.id).Nodup) :
    ((sortCreated (contacts.filter q)).map Contact.id).Nodup := by
  have hsub : ((contacts.filter q).map Contact.id).Sublist (contacts.map Contact.id) :=
    (List.filter_sublist contacts).map Contact.id
  exact (((sortCreated_perm (contacts.filter q)).map Contact.id).nodup_iff).mpr
    (hsub.nodup h)

theorem seedMatches_ids_nodup {contacts : List Contact} {e p : Option String}
    (h : (contacts.map Contact.id).Nodup) :
    ((seedMatches contacts e p).map Contact.id).Nodup :=
  ids_nodup_of_filter h

theorem expandStep_ids_nodup {contacts g : List Contact}
    (h : (contacts.map Contact.id).Nodup) :
    ((expandStep contacts g).map Contact.id).Nodup :=
  ids_nodup_of_filter h

theorem append_step_ids_nodup {contacts g : List Contact}
    (hc : (contacts.map Contact.id).Nodup) (hg : (g.map Contact.id).Nodup) :
    ((g ++ expandStep contacts g).map Contact.id).Nodup := by
  rw [List.map_append, List.nodup_append]
  refine ⟨hg, expandStep_ids_nodup hc, ?_⟩
  intro i hi hi2
  rcases List.mem_map.mp hi2 with ⟨c, hcmem, rfl⟩
  exact (mem_expandStep.mp hcmem).2.2.1 hi

/-- Everything in the group stays in the expanded group. -/
theorem expandLoop_supset {fuel : Nat} {contacts g : List Contact} {c : Contact}
    (h : c ∈ g) : c ∈ expandLoop fuel contacts g := by
  induction fuel generalizing g with
  | zero => exact h
  | succ fuel ih =>
    simp only [expandLoop]
    by_cases hn : expandStep contacts g = []
    · simp only [if_pos hn]; exact h
    · simp only [if_neg hn]; exact ih (List.mem_append_left _ h)

/-- Soundness: every contact collected by the loop is reachable from the
initial group. -/
theorem expandLoop_sound {fuel : Nat} {contacts g : List Contact} {c : Contact}
    (h : c ∈ expandLoop fuel contacts g) : ∃ a ∈ g, reaches contacts a c := by
  induction fuel generalizing g with
  | zero => exact ⟨c, h, reaches_refl c⟩
  | succ fuel ih =>
    simp only [expandLoop] at h
    by_cases hn : expandStep contacts g = []
    · rw [if_pos hn] at h; exact ⟨c, h, reaches_refl c⟩
    · rw [if_neg hn] at h
      rcases ih h with ⟨a, ha, hr⟩
      rcases List.mem_append.mp ha with ha2 | ha2
      · exact ⟨a, ha2, hr⟩
      · rcases expandStep_shares ha2 with ⟨b, hb, hs⟩
        have hstep : connStep contacts b a :=
          ⟨(expandStep_subLive contacts g a ha2).1,
           (expandStep_subLive contacts g a ha2).2, hs⟩
        exact ⟨b, hb, reaches_trans (Relation.ReflTransGen.single hstep) hr⟩

/-- In a store with deduplicated ids, rows are determined by their id. -/
theorem eq_of_id_eq {contacts : List Contact} (h : (contacts.map Contact.id).Nodup)
    {a b : Contact} (ha : a ∈ contacts) (hb : b ∈ contacts) (hid : a.id = b.id) :
    a = b :=
  List.inj_on_of_nodup_map h ha hb hid

/-- A fixpoint group (empty next round) is closed under connectivity steps. -/
theorem fixpoint_closed {contacts g : List Contact}
    (hfix : expandStep contacts g = []) (hnodup : (contacts.map Contact.id).Nodup)
    (hsub : ∀ c ∈ g, c ∈ contacts) {a b : Contact}
    (ha : a ∈ g) (hstep : connStep contacts a b) : b ∈ g := by
  by_cases hid : b.id ∈ g.map Contact.id
  · rcases List.mem_map.mp hid with ⟨d, hd, hdb⟩
    have : d = b := eq_of_id_eq hnodup (hsub d hd) hstep.1 hdb
    exact this ▸ hd
  · have : b ∈ expandStep contacts g :=
      shares_mem_expandStep ha hstep.1 hstep.2.1 hid hstep.2.2
    rw [hfix] at this
    cases this

/-- Anything reachable from a member of a closed group is in the group. -/
theorem closed_reaches_mem {contacts g : List Contact}
    (hclosed : ∀ a ∈ g, ∀ b, connStep contacts a b → b ∈ g) {s c : Contact}
    (hs : s ∈ g) (h : reaches contacts s c) : c ∈ g := by
  induction h with
  | refl => exact hs
  | tail _ step ih => exact hclosed _ ih _ step

/-- The loop with fuel at least `store size - group size` reaches a fixpoint. -/
theorem expandLoop_fixpoint {fuel : Nat} {contacts g : List Contact}
    (hnodup : (contacts.map Contact.id).Nodup)
    (hg : (g.map Contact.id).Nodup) (hsub : ∀ c ∈ g, c ∈ contacts)
    (hfuel : contacts.length ≤ fuel + g.length) :
    expandStep contacts (expandLoop fuel contacts g) = [] := by
  induction fuel generalizing g with
  | zero =>
    -- group already covers every id of the store
    simp only [expandLoop]
    have hsubids : (g.map Contact.id) ⊆ (contacts.map Contact.id) := by
      intro i hi
      rcases List.mem_map.mp hi with ⟨c, hc, rfl⟩
      exact List.mem_map.mpr ⟨c, hsub c hc, rfl⟩
    have hsub1 : (g.map Contact.id).toFinset ⊆ (contacts.map Contact.id).toFinset :=
      fun i hi => List.mem_toFinset.mpr (hsubids (List.mem_toFinset.mp hi))
    have hcardle : (contacts.map Contact.id).toFinset.card ≤
        (g.map Contact.id).toFinset.card := by
      calc (contacts.map Contact.id).toFinset.card
          ≤ (contacts.map Contact.id).length := (contacts.map Contact.id).toFinset_card_le
        _ = contacts.length := by rw [List.length_map]
        _ ≤ g.length := by simpa using hfuel
        _ = (g.map Contact.id).length := by rw [List.length_map]
        _ = (g.map Contact.id).toFinset.card := (List.toFinset_card_of_nodup hg).symm
    have hcard : (contacts.map Contact.id).toFinset ⊆ (g.map Contact.id).toFinset :=
      (Finset.eq_of_subset_of_card_le hsub1 hcardle).symm ▸ Finset.Subset.refl _
    unfold expandStep
    have : contacts.filter (fun c => decide
        (c.deletedAt = none ∧ c.id ∉ g.map Contact.id ∧
          matchesValues (g.filterMap Contact.email) (g.filterMap Contact.phoneNumber) c)) = [] := by
      apply List.filter_eq_nil_iff.mpr
      intro c hc
      simp only [decide_eq_true_eq, not_and]
      intro _ hnotin
      exfalso
      apply hnotin
      have : c.id ∈ (contacts.map Contact.id).toFinset :=
        List.mem_toFinset.mpr (List.mem_map.mpr ⟨c, hc, rfl⟩)
      exact List.mem_toFinset.mp (hcard this)
    rw [this]
    rfl
  | succ fuel ih =>
    simp only [expandLoop]
    by_cases hn : expandStep contacts g = []
    · simpa [if_pos hn] using hn
    · rw [if_neg hn]
      have hlen : 1 ≤ (expandStep contacts g).length :=
        Nat.one_le_iff_ne_zero.mpr (fun h => hn (List.length_eq_zero.mp h))
      refine ih (append_step_ids_nodup hnodup hg) ?_ ?_
      · intro c hc
        rcases List.mem_append.mp hc with hc | hc
        · exact hsub c hc
        · exact (expandStep_subLive contacts g c hc).1
      · rw [List.length_append]
        omega



/-! ## The resolved group is the connected component of the seed -/

theorem resolveGroup_subLive (contacts : List Contact) (e p : Option String) :
    subLive contacts (resolveGroup contacts e p) := by
  intro c hc
  rcases expandLoop_sound hc with ⟨a, ha, hr⟩
  rcases reaches_target hr with rfl | hb
  · exact (seedMatches_subLive contacts e p) c ha
  · exact hb

theorem resolveGroup_fixpoint {contacts : List Contact} {e p : Option String}
    (hnodup : (contacts.map Contact.id).Nodup) :
    expandStep contacts (resolveGroup contacts e p) = [] :=
  expandLoop_fixpoint hnodup (seedMatches_ids_nodup hnodup)
    (fun c hc => ((seedMatches_subLive contacts e p) c hc).1)
    (Nat.le_add_right _ _)

theorem resolveGroup_closed {contacts : List Contact} {e p : Option String}
    (hnodup : (contacts.map Contact.id).Nodup) :
    ∀ a ∈ resolveGroup contacts e p, ∀ b, connStep contacts a b →
      b ∈ resolveGroup contacts e p :=
  fun a ha b hb =>
    fixpoint_closed (resolveGroup_fixpoint hnodup) hnodup
      (fun c hc => ((resolveGroup_subLive contacts e p) c hc).1) ha hb

/-- The resolved group is exactly the set of contacts reachable from the
seed matches through shared stored values. -/
theorem resolveGroup_component {contacts : List Contact} {e p : Option String}
    (hnodup : (contacts.map Contact.id).Nodup) :
    ∀ c, c ∈ resolveGroup contacts e p ↔
      ∃ s ∈ seedMatches contacts e p, reaches contacts s c := by
  intro c
  constructor
  · exact fun h => expandLoop_sound h
  · rintro ⟨s, hs, hr⟩
    exact closed_reaches_mem (resolveGroup_closed hnodup) (expandLoop_supset hs) hr

theorem resolveGroup_ne_nil {contacts : List Contact} {e p : Option String}
    (hseed : seedMatches contacts e p ≠ []) : resolveGroup contacts e p ≠ [] := by
  rcases List.exists_mem_of_ne_nil _ hseed with ⟨s, hs⟩
  intro h
  have : s ∈ resolveGroup contacts e p := expandLoop_supset hs
  rw [h] at this
  cases this

theorem resolveGroup_ids_nodup {contacts : List Contact} {e p : Option String}
    (hnodup : (contacts.map Contact.id).Nodup) :
    ((resolveGroup contacts e p).map Contact.id).Nodup := by
  have aux : ∀ (fuel : Nat) (g : List Contact), ((g.map Contact.id)).Nodup →
      ((expandLoop fuel contacts g).map Contact.id).Nodup := by
    intro fuel
    induction fuel with
    | zero => intro g hg; exact hg
    | succ fuel ih =>
      intro g hg
      simp only [expandLoop]
      by_cases hn : expandStep contacts g = []
      · simpa [if_pos hn] using hg
      · rw [if_neg hn]
        exact ih _ (append_step_ids_nodup hnodup hg)
  exact aux _ _ (seedMatches_ids_nodup hnodup)

/-! ## The claim's normalized-value connectivity (for comparison) -/

/-- The specification's edge relation: shared *normalized* email or phone. -/
def sharesNormalizedValue (a b : Contact) : Prop :=
  (normalizeEmail a.email ≠ none ∧ normalizeEmail a.email = normalizeEmail b.email) ∨
    (normalizePhone a.phoneNumber ≠ none ∧
      normalizePhone a.phoneNumber = normalizePhone b.phoneNumber)

instance (a b : Contact) : Decidable (sharesNormalizedValue a b) := by
  unfold sharesNormalizedValue; exact inferInstance

/-- One step of the specification's normalized connectivity. -/
def connStepNorm (contacts : List Contact) (a b : Contact) : Prop :=
  b ∈ contacts ∧ b.deletedAt = none ∧ sharesNormalizedValue a b

/-- Transitive reachability by shared normalized values (the claim's words). -/
def reachesNorm (contacts : List Contact) : Contact → Contact → Prop :=
  Relation.ReflTransGen (connStepNorm contacts)

/-- Legacy row with an unnormalized stored email. -/
def legacyUpper : Contact :=
  ⟨1, some "A", none, .primary, none, 0, none⟩

/-- Normalized row with the same email up to normalization. -/
def normedLower : Contact :=
  ⟨2, some "a", none, .primary, none, 1, none⟩

def legacyStore : List Contact := [legacyUpper, normedLower]




/-! ## The demotion update as a row transformation -/

/-- The row transformation applied by the demotion `updateMany`. -/
def dmFun (ids : List Nat) (pid : Nat) (c : Contact) : Contact :=
  if c.id ∈ ids then { c with linkPrecedence := .secondary, linkedId := some pid } else c

theorem demoteIds_eq_map (contacts : List Contact) (ids : List Nat) (pid : Nat) :
    demoteIds contacts ids pid = contacts.map (dmFun ids pid) := rfl

theorem dmFun_id (ids : List Nat) (pid : Nat) (c : Contact) :
    (dmFun ids pid c).id = c.id := by
  unfold dmFun; split <;> rfl

theorem dmFun_email (ids : List Nat) (pid : Nat) (c : Contact) :
    (dmFun ids pid c).email = c.email := by
  unfold dmFun; split <;> rfl

theorem dmFun_phone (ids : List Nat) (pid : Nat) (c : Contact) :
    (dmFun ids pid c).phoneNumber = c.phoneNumber := by
  unfold dmFun; split <;> rfl

theorem dmFun_createdAt (ids : List Nat) (pid : Nat) (c : Contact) :
    (dmFun ids pid c).createdAt = c.createdAt := by
  unfold dmFun; split <;> rfl

theorem dmFun_deletedAt (ids : List Nat) (pid : Nat) (c : Contact) :
    (dmFun ids pid c).deletedAt = c.deletedAt := by
  unfold dmFun; split <;> rfl

theorem dmFun_of_notMem {ids : List Nat} {pid : Nat} {c : Contact}
    (h : c.id ∉ ids) : dmFun ids pid c = c := by
  unfold dmFun; rw [if_neg h]

theorem dmFun_of_mem {ids : List Nat} {pid : Nat} {c : Contact} (h : c.id ∈ ids) :
    dmFun ids pid c = { c with linkPrecedence := .secondary, linkedId := some pid } := by
  unfold dmFun; rw [if_pos h]

theorem sharesValue_dmFun_iff (ids : List Nat) (pid : Nat) (a b : Contact) :
    sharesValue (dmFun ids pid a) (dmFun ids pid b) ↔ sharesValue a b := by
  unfold sharesValue
  rw [dmFun_email, dmFun_email, dmFun_phone, dmFun_phone]

theorem reaches_map_dmFun {contacts : List Contact} {ids : List Nat} {pid : Nat}
    {a b : Contact} (h : reaches contacts a b) :
    reaches (contacts.map (dmFun ids pid)) (dmFun ids pid a) (dmFun ids pid b) := by
  induction h with
  | refl => exact Relation.ReflTransGen.refl
  | tail _ step ih =>
    refine Relation.ReflTransGen.tail ih ?_
    refine ⟨List.mem_map_of_mem _ step.1, ?_, ?_⟩
    · rw [dmFun_deletedAt]; exact step.2.1
    · exact (sharesValue_dmFun_iff ids pid _ _).mpr step.2.2

/-- Closure of an arbitrary predicate along reachability. -/
theorem reaches_invariant {contacts : List Contact} {S : Contact → Prop}
    (hclosed : ∀ a, S a → ∀ b, connStep contacts a b → S b) {s c : Contact}
    (hs : S s) (h : reaches contacts s c) : S c := by
  induction h with
  | refl => exact hs
  | tail _ step ih => exact hclosed _ ih _ step

/-! ## Well-formedness of reachable stores -/

/-- Structural invariants of stores produced by the reconcile flow. -/
structure StoreWF (s : Store) : Prop where
  ids_lt : ∀ c ∈ s.contacts, c.id < s.nextId
  ids_sorted : s.contacts.Pairwise (fun a b => a.id < b.id)
  created_sorted : s.contacts.Pairwise (fun a b => a.createdAt < b.createdAt)
  live : ∀ c ∈ s.contacts, c.deletedAt = none
  link : ∀ c ∈ s.contacts, (c.linkPrecedence = .primary ↔ c.linkedId = none)
  linkTarget : ∀ c ∈ s.contacts, ∀ j, c.linkedId = some j →
    ∃ d ∈ s.contacts, d.id = j ∧ d.createdAt < c.createdAt

/-- Every primary is a `createdAt`-minimum of its connected cluster. -/
def PrimMin (s : Store) : Prop :=
  ∀ p ∈ s.contacts, p.linkPrecedence = .primary →
    ∀ d, reaches s.contacts p d → p.createdAt ≤ d.createdAt

theorem pairwise_lt_inj {l : List Contact} {f : Contact → Nat}
    (h : l.Pairwise (fun a b => f a < f b)) :
    ∀ a ∈ l, ∀ b ∈ l, f a = f b → a = b := by
  induction l with
  | nil => simp
  | cons x l ih =>
    rcases List.pairwise_cons.mp h with ⟨hx, hl⟩
    intro a ha b hb hab
    rcases List.mem_cons.mp ha with rfl | ha2 <;> rcases List.mem_cons.mp hb with rfl | hb2
    · rfl
    · exact absurd hab (Nat.ne_of_lt (hx b hb2))
    · exact absurd hab.symm (Nat.ne_of_lt (hx a ha2))
    · exact ih hl a ha2 b hb2 hab

theorem wf_ids_nodup {s : Store} (hwf : StoreWF s) :
    (s.contacts.map Contact.id).Nodup := by
  refine (List.pairwise_map.mpr ?_ : (s.contacts.map Contact.id).Pairwise (· ≠ ·))
  exact hwf.ids_sorted.imp (fun h => Nat.ne_of_lt h)

theorem wf_created_inj {s : Store} (hwf : StoreWF s) :
    ∀ a ∈ s.contacts, ∀ b ∈ s.contacts, a.createdAt = b.createdAt → a = b :=
  pairwise_lt_inj hwf.created_sorted

theorem wf_id_inj {s : Store} (hwf : StoreWF s) :
    ∀ a ∈ s.contacts, ∀ b ∈ s.contacts, a.id = b.id → a = b :=
  pairwise_lt_inj hwf.ids_sorted

/-! ## Preservation: the no-match branch -/

theorem sortCreated_eq_nil_iff {l : List Contact} : sortCreated l = [] ↔ l = [] := by
  constructor
  · intro h
    have hp := sortCreated_perm l
    rw [h] at hp
    exact hp.symm.eq_nil
  · rintro rfl; rfl

theorem seedMatches_eq_nil_iff {contacts : List Contact} {e p : Option String} :
    seedMatches contacts e p = [] ↔
      ∀ c ∈ contacts, ¬ (c.deletedAt = none ∧ matchesInput e p c) := by
  unfold seedMatches
  rw [sortCreated_eq_nil_iff, List.filter_eq_nil_iff]
  simp only [decide_eq_true_eq]

/-- When the seed query is empty, the created row shares no value with any
live pre-existing row: the new primary starts its own cluster. -/
theorem newContact_not_shares {contacts : List Contact} {e p : Option String}
    (hseed : seedMatches contacts e p = []) {i : Nat} {prec : Precedence}
    {lid : Option Nat} {now : Nat} {c : Contact} (hc : c ∈ contacts)
    (hlive : c.deletedAt = none) : ¬ sharesValue (newContact i e p prec lid now) c := by
  intro h
  refine (seedMatches_eq_nil_iff.mp hseed c hc) ⟨hlive, ?_⟩
  rcases h with ⟨hne, he⟩ | ⟨hne, hp⟩
  · exact Or.inl ⟨hne, he.symm⟩
  · exact Or.inr ⟨hne, hp.symm⟩

theorem noMatch_wf {s : Store} {now : Nat} {e p : Option String}
    (hwf : StoreWF s) (hfresh : ∀ c ∈ s.contacts, c.createdAt < now) :
    StoreWF (identifyNoMatch s now e p).2 := by
  have h2 : (identifyNoMatch s now e p).2 =
      ⟨s.contacts ++ [newContact s.nextId e p .primary none now], s.nextId + 1⟩ := rfl
  rw [h2]
  refine ⟨?_, ?_, ?_, ?_, ?_, ?_⟩
  · intro c hc
    rcases List.mem_append.mp hc with hc | hc
    · exact Nat.lt_succ_of_lt (hwf.ids_lt c hc)
    · rw [List.mem_singleton.mp hc]; exact Nat.lt_succ_self _
  · rw [List.pairwise_append]
    refine ⟨hwf.ids_sorted, List.pairwise_singleton _ _, ?_⟩
    intro a ha b hb
    rw [List.mem_singleton.mp hb]
    exact hwf.ids_lt a ha
  · rw [List.pairwise_append]
    refine ⟨hwf.created_sorted, List.pairwise_singleton _ _, ?_⟩
    intro a ha b hb
    rw [List.mem_singleton.mp hb]
    exact hfresh a ha
  · intro c hc
    rcases List.mem_append.mp hc with hc | hc
    · exact hwf.live c hc
    · rw [List.mem_singleton.mp hc]; rfl
  · intro c hc
    rcases List.mem_append.mp hc with hc | hc
    · exact hwf.link c hc
    · rw [List.mem_singleton.mp hc]
      exact ⟨fun _ => rfl, fun _ => rfl⟩
  · intro c hc j hj
    rcases List.mem_append.mp hc with hc | hc
    · rcases hwf.linkTarget c hc j hj with ⟨d, hd, hdj, hdc⟩
      exact ⟨d, List.mem_append_left _ hd, hdj, hdc⟩
    · rw [List.mem_singleton.mp hc] at hj
      cases hj

theorem noMatch_primMin {s : Store} {now : Nat} {e p : Option String}
    (hwf : StoreWF s) (hpm : PrimMin s)
    (hfresh : ∀ c ∈ s.contacts, c.createdAt < now)
    (hseed : seedMatches s.contacts e p = []) :
    PrimMin (identifyNoMatch s now e p).2 := by
  intro q hq hqprim d hreach
  have hstore : (identifyNoMatch s now e p).2.contacts =
      s.contacts ++ [newContact s.nextId e p .primary none now] := rfl
  rw [hstore] at hq hreach
  rcases List.mem_append.mp hq with hqmem | hqnew
  · -- an old primary: paths cannot enter the isolated new row
    have hconf : ∀ y, reaches s.contacts q y → ∀ b,
        connStep (s.contacts ++ [newContact s.nextId e p .primary none now]) y b →
        reaches s.contacts q b := by
      intro y hy b hb
      have hymem : y ∈ s.contacts ∧ y.deletedAt = none := by
        rcases reaches_target hy with h1 | h2
        · exact h1 ▸ ⟨hqmem, hwf.live q hqmem⟩
        · exact h2
      rcases List.mem_append.mp hb.1 with hbmem | hbnew
      · exact Relation.ReflTransGen.tail hy ⟨hbmem, hb.2.1, hb.2.2⟩
      · exfalso
        rw [List.mem_singleton.mp hbnew] at hb
        exact newContact_not_shares hseed hymem.1 hymem.2
          (sharesValue_symm hb.2.2)
    have hd : reaches s.contacts q d :=
      reaches_invariant hconf (reaches_refl q) hreach
    exact hpm q hqmem hqprim d hd
  · -- the new row: its cluster is a singleton
    rw [List.mem_singleton.mp hqnew] at hreach ⊢
    have hconf : ∀ a, a = newContact s.nextId e p .primary none now → ∀ b,
        connStep (s.contacts ++ [newContact s.nextId e p .primary none now]) a b →
        b = newContact s.nextId e p .primary none now := by
      rintro a rfl b hb
      rcases List.mem_append.mp hb.1 with hbmem | hbnew
      · exact absurd hb.2.2 (newContact_not_shares hseed hbmem hb.2.1)
      · exact List.mem_singleton.mp hbnew
    have hd := reaches_invariant hconf rfl hreach
    rw [hd]



/-! ## Preservation: the merge branch -/

section MergeBranch

variable (s : Store) (now : Nat) (e p : Option String)

/-- Shorthand for the ids demoted by the merge. -/
def demIds : List Nat :=
  (otherPrimaries (resolveGroup s.contacts e p) (electOf s.contacts e p)).map Contact.id

theorem demotedOf_eq_map :
    demotedOf s.contacts e p =
      s.contacts.map (dmFun (demIds s e p) (electOf s.contacts e p).id) := rfl

end MergeBranch

section MergeFacts

variable {s : Store} {now : Nat} {e p : Option String}

theorem elect_mem {contacts : List Contact} (hseed : seedMatches contacts e p ≠ []) :
    electOf contacts e p ∈ resolveGroup contacts e p :=
  electPrimary_mem (resolveGroup_ne_nil hseed)

theorem elect_min {contacts : List Contact} (hseed : seedMatches contacts e p ≠ []) :
    ∀ c ∈ resolveGroup contacts e p,
      (electOf contacts e p).createdAt ≤ c.createdAt :=
  electPrimary_min (resolveGroup_ne_nil hseed)

theorem elect_id_not_demoted : (electOf s.contacts e p).id ∉ demIds s e p := by
  intro h
  rcases List.mem_map.mp h with ⟨o, ho, hoid⟩
  exact (mem_otherPrimaries.mp ho).2.1 hoid

theorem dm_elect :
    dmFun (demIds s e p) (electOf s.contacts e p).id (electOf s.contacts e p) =
      electOf s.contacts e p :=
  dmFun_of_notMem elect_id_not_demoted

/-- A store row whose id was demoted is itself a demoted other-primary. -/
theorem mem_others_of_id_demoted (hnodup : (s.contacts.map Contact.id).Nodup)
    {c : Contact} (hc : c ∈ s.contacts) (h : c.id ∈ demIds s e p) :
    c ∈ otherPrimaries (resolveGroup s.contacts e p) (electOf s.contacts e p) := by
  rcases List.mem_map.mp h with ⟨o, ho, hoid⟩
  have homem : o ∈ s.contacts :=
    ((resolveGroup_subLive s.contacts e p) o (mem_otherPrimaries.mp ho).1).1
  have : o = c := eq_of_id_eq hnodup homem hc hoid
  exact this ▸ ho

/-- Rows outside the resolved group are untouched by the demotion. -/
theorem dm_of_not_group (hnodup : (s.contacts.map Contact.id).Nodup)
    {c : Contact} (hc : c ∈ s.contacts)
    (hcg : c ∉ resolveGroup s.contacts e p) :
    dmFun (demIds s e p) (electOf s.contacts e p).id c = c := by
  apply dmFun_of_notMem
  intro h
  exact hcg (mem_otherPrimaries.mp (mem_others_of_id_demoted hnodup hc h)).1

/-- A row that remains primary after the demotion is the elected contact or
lies outside the resolved group. -/
theorem primary_after_dm (hnodup : (s.contacts.map Contact.id).Nodup)
    {c : Contact} (hc : c ∈ s.contacts)
    (hprim : (dmFun (demIds s e p) (electOf s.contacts e p).id c).linkPrecedence
      = .primary) :
    c.linkPrecedence = .primary ∧
      (c = electOf s.contacts e p ∨ c ∉ resolveGroup s.contacts e p) := by
  by_cases hid : c.id ∈ demIds s e p
  · rw [dmFun_of_mem hid] at hprim
    cases hprim
  · rw [dmFun_of_notMem hid] at hprim
    refine ⟨hprim, ?_⟩
    by_cases hg : c ∈ resolveGroup s.contacts e p
    · left
      by_cases hcp : c.id = (electOf s.contacts e p).id
      · have hpm : electOf s.contacts e p ∈ s.contacts :=
          ((resolveGroup_subLive s.contacts e p) _
            (electPrimary_mem (fun hnil => by simp [hnil] at hg))).1
        exact eq_of_id_eq hnodup hc hpm hcp
      · exact absurd (List.mem_map.mpr
          ⟨c, mem_otherPrimaries.mpr ⟨hg, hcp, hprim⟩, rfl⟩) hid
    · exact Or.inr hg

/-- Membership in the post-merge row list. -/
theorem mem_contacts2 {x : Contact} :
    x ∈ contacts2Of s now e p ↔
      (∃ c0 ∈ s.contacts,
        x = dmFun (demIds s e p) (electOf s.contacts e p).id c0) ∨
      (doCreateOf s.contacts e p ∧ x = newSecondary s now e p) := by
  unfold contacts2Of
  by_cases hdc : doCreateOf s.contacts e p
  · rw [if_pos hdc, List.mem_append]
    rw [demotedOf_eq_map]
    simp only [List.mem_map, List.mem_singleton]
    constructor
    · rintro (⟨c0, hc0, rfl⟩ | h)
      · exact Or.inl ⟨c0, hc0, rfl⟩
      · exact Or.inr ⟨hdc, h⟩
    · rintro (⟨c0, hc0, rfl⟩ | ⟨-, h⟩)
      · exact Or.inl ⟨c0, hc0, rfl⟩
      · exact Or.inr h
  · rw [if_neg hdc]
    rw [demotedOf_eq_map]
    simp only [List.mem_map]
    constructor
    · rintro ⟨c0, hc0, rfl⟩
      exact Or.inl ⟨c0, hc0, rfl⟩
    · rintro (⟨c0, hc0, rfl⟩ | ⟨h, -⟩)
      · exact ⟨c0, hc0, rfl⟩
      · exact absurd h hdc

/-- A value shared with the newly created secondary marks a seed match: the
new row only attaches to the resolved group. -/
theorem shares_newSecondary {y : Contact}
    (h : sharesValue (newSecondary s now e p) y) {c0 : Contact}
    (hy : y = dmFun (demIds s e p) (electOf s.contacts e p).id c0)
    (hc0 : c0 ∈ s.contacts) (hlive : c0.deletedAt = none) :
    c0 ∈ resolveGroup s.contacts e p := by
  apply expandLoop_supset
  refine mem_seedMatches.mpr ⟨hc0, hlive, ?_⟩
  rcases h with ⟨hne, he⟩ | ⟨hne, hp⟩
  · refine Or.inl ⟨hne, ?_⟩
    have : y.email = e := by
      rw [← he]; rfl
    rw [hy, dmFun_email] at this
    exact this
  · refine Or.inr ⟨hne, ?_⟩
    have : y.phoneNumber = p := by
      rw [← hp]; rfl
    rw [hy, dmFun_phone] at this
    exact this

/-- Reachability from the elected primary in the post-merge store stays in
the (demoted image of the) resolved group, plus the new row. -/
theorem merge_reach_elect (hwf : StoreWF s)
    (hseed : seedMatches s.contacts e p ≠ []) {d : Contact}
    (hreach : reaches (contacts2Of s now e p) (electOf s.contacts e p) d) :
    (∃ d0 ∈ resolveGroup s.contacts e p,
      d = dmFun (demIds s e p) (electOf s.contacts e p).id d0) ∨
      d = newSecondary s now e p := by
  have hnodup := wf_ids_nodup hwf
  refine @reaches_invariant (contacts2Of s now e p)
    (fun y => (∃ d0 ∈ resolveGroup s.contacts e p,
      y = dmFun (demIds s e p) (electOf s.contacts e p).id d0) ∨
      y = newSecondary s now e p) ?_ _ _
    (Or.inl ⟨electOf s.contacts e p, elect_mem hseed, dm_elect.symm⟩) hreach
  rintro a (⟨a0, ha0g, rfl⟩ | rfl) b hb
  · rcases mem_contacts2.mp hb.1 with ⟨b0, hb0, rfl⟩ | ⟨-, rfl⟩
    · left
      refine ⟨b0, ?_, rfl⟩
      have hshares : sharesValue a0 b0 :=
        (sharesValue_dmFun_iff _ _ _ _).mp hb.2.2
      have hb0live : b0.deletedAt = none := by
        have := hb.2.1; rw [dmFun_deletedAt] at this; exact this
      exact resolveGroup_closed hnodup a0 ha0g b0 ⟨hb0, hb0live, hshares⟩
    · exact Or.inr rfl
  · rcases mem_contacts2.mp hb.1 with ⟨b0, hb0, rfl⟩ | ⟨-, rfl⟩
    · left
      refine ⟨b0, ?_, rfl⟩
      have hb0live : b0.deletedAt = none := by
        have := hb.2.1; rw [dmFun_deletedAt] at this; exact this
      exact shares_newSecondary hb.2.2 rfl hb0 hb0live
    · exact Or.inr rfl

/-- Reachability from a row outside the resolved group never enters the
group or the new row, and mirrors pre-merge reachability. -/
theorem merge_reach_out (hwf : StoreWF s) {a d : Contact}
    (ha : a ∈ s.contacts) (hag : a ∉ resolveGroup s.contacts e p)
    (hreach : reaches (contacts2Of s now e p) a d) :
    ∃ d0, d0 ∈ s.contacts ∧ d0 ∉ resolveGroup s.contacts e p ∧
      d = dmFun (demIds s e p) (electOf s.contacts e p).id d0 ∧
      reaches s.contacts a d0 := by
  have hnodup := wf_ids_nodup hwf
  refine @reaches_invariant (contacts2Of s now e p)
    (fun y => ∃ d0, d0 ∈ s.contacts ∧ d0 ∉ resolveGroup s.contacts e p ∧
      y = dmFun (demIds s e p) (electOf s.contacts e p).id d0 ∧
      reaches s.contacts a d0) ?_ _ _
    ⟨a, ha, hag, (dm_of_not_group (wf_ids_nodup hwf) ha hag).symm, reaches_refl a⟩ hreach
  rintro y ⟨d0, hd0, hd0g, rfl, hr0⟩ b hb
  rcases mem_contacts2.mp hb.1 with ⟨b0, hb0, rfl⟩ | ⟨-, rfl⟩
  · have hshares : sharesValue d0 b0 :=
      (sharesValue_dmFun_iff _ _ _ _).mp hb.2.2
    have hb0live : b0.deletedAt = none := by
      have := hb.2.1; rw [dmFun_deletedAt] at this; exact this
    refine ⟨b0, hb0, ?_, rfl, Relation.ReflTransGen.tail hr0 ⟨hb0, hb0live, hshares⟩⟩
    intro hbg
    exact hd0g (resolveGroup_closed hnodup b0 hbg d0
      ⟨hd0, hwf.live d0 hd0, sharesValue_symm hshares⟩)
  · exact absurd (shares_newSecondary (sharesValue_symm hb.2.2) rfl hd0
      (hwf.live d0 hd0)) hd0g

end MergeFacts



section MergePreserve

variable {s : Store} {now : Nat} {e p : Option String}

/-- The merge branch preserves `PrimMin`: after demotion and creation every
primary still has minimal `createdAt` in its connected cluster. -/
theorem merge_primMin (hwf : StoreWF s) (hpm : PrimMin s)
    (hfresh : ∀ c ∈ s.contacts, c.createdAt < now)
    (hseed : seedMatches s.contacts e p ≠ []) :
    PrimMin (identifyMerge s now e p).2 := by
  intro q hq hqprim d hreach
  have hq2 : q ∈ contacts2Of s now e p := hq
  have hreach2 : reaches (contacts2Of s now e p) q d := hreach
  rcases mem_contacts2.mp hq2 with ⟨c0, hc0, rfl⟩ | ⟨-, rfl⟩
  · rcases primary_after_dm (wf_ids_nodup hwf) hc0 hqprim with ⟨hc0prim, hcase⟩
    have hdm : dmFun (demIds s e p) (electOf s.contacts e p).id c0 = c0 := by
      rcases hcase with rfl | hout
      · exact dm_elect
      · exact dm_of_not_group (wf_ids_nodup hwf) hc0 hout
    rcases hcase with rfl | hout
    · -- the elected primary: its new cluster is the resolved group plus the
      -- possibly created secondary, all created no earlier
      rw [hdm] at hreach2 ⊢
      rcases merge_reach_elect hwf hseed hreach2 with ⟨d0, hd0g, rfl⟩ | rfl
      · rw [dmFun_createdAt]
        exact elect_min hseed d0 hd0g
      · have : (electOf s.contacts e p).createdAt < now :=
          hfresh _ ((resolveGroup_subLive s.contacts e p) _ (elect_mem hseed)).1
        exact Nat.le_of_lt this
    · -- a primary outside the resolved group: its cluster is untouched
      rw [hdm] at hreach2 ⊢
      rcases merge_reach_out hwf hc0 hout hreach2 with ⟨d0, hd0, -, rfl, hr0⟩
      rw [dmFun_createdAt]
      exact hpm c0 hc0 hc0prim d0 hr0
  · -- the created row is secondary, never a primary
    cases hqprim

/-- The merge branch preserves the structural store invariants. -/
theorem merge_wf (hwf : StoreWF s)
    (hfresh : ∀ c ∈ s.contacts, c.createdAt < now)
    (hseed : seedMatches s.contacts e p ≠ []) :
    StoreWF (identifyMerge s now e p).2 := by
  have hpmem : electOf s.contacts e p ∈ s.contacts :=
    ((resolveGroup_subLive s.contacts e p) _ (elect_mem hseed)).1
  have hstore : (identifyMerge s now e p).2 =
      ⟨contacts2Of s now e p, nextId2Of s e p⟩ := rfl
  rw [hstore]
  have hnext : s.nextId ≤ nextId2Of s e p := by
    unfold nextId2Of
    split
    · exact Nat.le_succ _
    · exact Nat.le_refl _
  refine ⟨?_, ?_, ?_, ?_, ?_, ?_⟩
  · intro c hc
    rcases mem_contacts2.mp hc with ⟨c0, hc0, rfl⟩ | ⟨hdc, rfl⟩
    · rw [dmFun_id]
      exact Nat.lt_of_lt_of_le (hwf.ids_lt c0 hc0) hnext
    · show s.nextId < nextId2Of s e p
      unfold nextId2Of
      rw [if_pos hdc]
      exact Nat.lt_succ_self _
  · show (contacts2Of s now e p).Pairwise (fun a b => a.id < b.id)
    unfold contacts2Of
    have hmap : (demotedOf s.contacts e p).Pairwise (fun a b => a.id < b.id) := by
      rw [demotedOf_eq_map]
      refine List.pairwise_map.mpr (hwf.ids_sorted.imp ?_)
      intro a b h
      rw [dmFun_id, dmFun_id]
      exact h
    split
    · rw [List.pairwise_append]
      refine ⟨hmap, List.pairwise_singleton _ _, ?_⟩
      intro a ha b hb
      rw [List.mem_singleton.mp hb]
      rw [demotedOf_eq_map] at ha
      rcases List.mem_map.mp ha with ⟨a0, ha0, rfl⟩
      rw [dmFun_id]
      exact hwf.ids_lt a0 ha0
    · exact hmap
  · show (contacts2Of s now e p).Pairwise (fun a b => a.createdAt < b.createdAt)
    unfold contacts2Of
    have hmap : (demotedOf s.contacts e p).Pairwise
        (fun a b => a.createdAt < b.createdAt) := by
      rw [demotedOf_eq_map]
      refine List.pairwise_map.mpr (hwf.created_sorted.imp ?_)
      intro a b h
      rw [dmFun_createdAt, dmFun_createdAt]
      exact h
    split
    · rw [List.pairwise_append]
      refine ⟨hmap, List.pairwise_singleton _ _, ?_⟩
      intro a ha b hb
      rw [List.mem_singleton.mp hb]
      rw [demotedOf_eq_map] at ha
      rcases List.mem_map.mp ha with ⟨a0, ha0, rfl⟩
      rw [dmFun_createdAt]
      exact hfresh a0 ha0
    · exact hmap
  · intro c hc
    rcases mem_contacts2.mp hc with ⟨c0, hc0, rfl⟩ | ⟨-, rfl⟩
    · rw [dmFun_deletedAt]
      exact hwf.live c0 hc0
    · rfl
  · intro c hc
    rcases mem_contacts2.mp hc with ⟨c0, hc0, rfl⟩ | ⟨-, rfl⟩
    · by_cases hid : c0.id ∈ demIds s e p
      · rw [dmFun_of_mem hid]
        exact ⟨fun h => (nomatch h), fun h => (nomatch h)⟩
      · rw [dmFun_of_notMem hid]
        exact hwf.link c0 hc0
    · exact ⟨fun h => (nomatch h), fun h => (nomatch h)⟩
  · intro c hc j hj
    rcases mem_contacts2.mp hc with ⟨c0, hc0, rfl⟩ | ⟨-, rfl⟩
    · by_cases hid : c0.id ∈ demIds s e p
      · rw [dmFun_of_mem hid] at hj ⊢
        have hj2 : (electOf s.contacts e p).id = j := by
          have : some (electOf s.contacts e p).id = some j := hj
          exact Option.some.inj this
        have hother := mem_others_of_id_demoted (wf_ids_nodup hwf) hc0 hid
        rcases mem_otherPrimaries.mp hother with ⟨hc0g, hc0ne, -⟩
        have hle : (electOf s.contacts e p).createdAt ≤ c0.createdAt :=
          elect_min hseed c0 hc0g
        have hne : electOf s.contacts e p ≠ c0 := by
          intro h
          exact hc0ne (by rw [← h])
        have hlt : (electOf s.contacts e p).createdAt < c0.createdAt := by
          rcases Nat.lt_or_ge (electOf s.contacts e p).createdAt c0.createdAt with h | h
          · exact h
          · exact absurd (wf_created_inj hwf _ hpmem _ hc0
              (Nat.le_antisymm hle h)) hne
        refine ⟨electOf s.contacts e p, ?_, hj2, hlt⟩
        exact mem_contacts2.mpr (Or.inl ⟨electOf s.contacts e p, hpmem, dm_elect.symm⟩)
      · rw [dmFun_of_notMem hid] at hj ⊢
        rcases hwf.linkTarget c0 hc0 j hj with ⟨d, hd, hdj, hdc⟩
        refine ⟨dmFun (demIds s e p) (electOf s.contacts e p).id d, ?_, ?_, ?_⟩
        · exact mem_contacts2.mpr (Or.inl ⟨d, hd, rfl⟩)
        · rw [dmFun_id]; exact hdj
        · rw [dmFun_createdAt]; exact hdc
    · have hj2 : (electOf s.contacts e p).id = j := by
        have : some (electOf s.contacts e p).id = some j := hj
        exact Option.some.inj this
      refine ⟨electOf s.contacts e p, ?_, hj2, ?_⟩
      · exact mem_contacts2.mpr (Or.inl ⟨electOf s.contacts e p, hpmem, dm_elect.symm⟩)
      · show (electOf s.contacts e p).createdAt < now
        exact hfresh _ hpmem

end MergePreserve

/-! ## Reachable stores -/

/-- Stores reachable from the empty store by a sequence of reconcile calls:
each call runs on a valid (non-empty after normalization) input, and the
store assigns strictly increasing creation timestamps. -/
inductive Reachable : Store → Prop where
  | empty : Reachable ⟨[], 1⟩
  | step (s : Store) (now : Nat) (input : IdRequest) (hr : Reachable s)
      (hfresh : ∀ c ∈ s.contacts, c.createdAt < now)
      (hvalid : ¬ (normalizeEmail input.email = none ∧
        normalizePhone input.phoneNumber = none)) :
      Reachable (identifyTx s now input).2

theorem identifyTx_cases (s : Store) (now : Nat) (input : IdRequest) :
    identifyTx s now input =
      if seedMatches s.contacts (normalizeEmail input.email)
          (normalizePhone input.phoneNumber) = [] then
        identifyNoMatch s now (normalizeEmail input.email)
          (normalizePhone input.phoneNumber)
      else
        identifyMerge s now (normalizeEmail input.email)
          (normalizePhone input.phoneNumber) := rfl

/-- One reconcile call preserves well-formedness and cluster minimality. -/
theorem identifyTx_invariants {s : Store} {now : Nat} {input : IdRequest}
    (hwf : StoreWF s) (hpm : PrimMin s)
    (hfresh : ∀ c ∈ s.contacts, c.createdAt < now) :
    StoreWF (identifyTx s now input).2 ∧ PrimMin (identifyTx s now input).2 := by
  rw [identifyTx_cases]
  by_cases hs : seedMatches s.contacts (normalizeEmail input.email)
      (normalizePhone input.phoneNumber) = []
  · rw [if_pos hs]
    exact ⟨noMatch_wf hwf hfresh, noMatch_primMin hwf hpm hfresh hs⟩
  · rw [if_neg hs]
    exact ⟨merge_wf hwf hfresh hs, merge_primMin hwf hpm hfresh hs⟩

/-- Every reachable store is well-formed and satisfies cluster minimality. -/
theorem reachable_invariants {s : Store} (h : Reachable s) :
    StoreWF s ∧ PrimMin s := by
  induction h with
  | empty =>
    refine ⟨⟨?_, ?_, ?_, ?_, ?_, ?_⟩, ?_⟩ <;> simp [PrimMin]
  | step s now input hr hfresh hvalid ih =>
    exact identifyTx_invariants ih.1 ih.2 hfresh



/-! ## Claim C1: the resolver computes the connected component -/

/-- **C1** fails as stated: with a legacy unnormalized stored email (`"A"`),
the code's expansion uses raw stored-string equality, so it does not collect
a contact that shares a *normalized* email with the seed match. -/
theorem c1_counterexample :
    ¬ (∀ c, c ∈ resolveGroup legacyStore (some "a") none ↔
        ∃ s ∈ seedMatches legacyStore (some "a") none,
          reachesNorm legacyStore s c) := by
  intro h
  have hstep : connStepNorm legacyStore normedLower legacyUpper :=
    ⟨by decide, rfl, by decide⟩
  have hmem : legacyUpper ∈ resolveGroup legacyStore (some "a") none :=
    (h legacyUpper).mpr ⟨normedLower, by decide, Relation.ReflTransGen.single hstep⟩
  exact absurd hmem (by decide)

/-- **C1** (amended: connectivity is by shared *stored* values, raw string
equality — coinciding with normalized equality whenever stored values are
normalized).  For every store with duplicate-free ids whose seed query has at
least one non-deleted match, the group computed by the expansion loop is
exactly the set of non-deleted contacts transitively reachable from the seed
matches by a shared stored email or phone, and the loop reaches its fixpoint:
the round after the computed group adds zero contacts. -/
theorem c1_cluster_component (contacts : List Contact) (e p : Option String)
    (hnodup : (contacts.map Contact.id).Nodup)
    (hseed : seedMatches contacts e p ≠ []) :
    (∀ c, c ∈ resolveGroup contacts e p ↔
      ∃ s ∈ seedMatches contacts e p, reaches contacts s c) ∧
      expandStep contacts (resolveGroup contacts e p) = [] :=
  ⟨resolveGroup_component hnodup, resolveGroup_fixpoint hnodup⟩

/-- Witness for C1 at a concrete two-row store. -/
theorem c1_witness :
    ((legacyStore.map Contact.id).Nodup ∧
      seedMatches legacyStore (some "a") none ≠ []) ∧
    ((∀ c, c ∈ resolveGroup legacyStore (some "a") none ↔
      ∃ s ∈ seedMatches legacyStore (some "a") none,
        reaches legacyStore s c) ∧
      expandStep legacyStore (resolveGroup legacyStore (some "a") none) = []) :=
  ⟨⟨by decide, by decide⟩,
    c1_cluster_component legacyStore (some "a") none (by decide) (by decide)⟩

/-! ## Claim C6: primary election -/

/-- Three primaries sharing phone `"p"`, all created at the same instant; the
input email only matches the row with the highest id. -/
def tiedA : Contact := ⟨1, some "b", some "p", .primary, none, 0, none⟩

def tiedB : Contact := ⟨2, some "c", some "p", .primary, none, 0, none⟩

def tiedC : Contact := ⟨3, some "a", some "p", .primary, none, 0, none⟩

def tiedStore : List Contact := [tiedA, tiedB, tiedC]

/-- **C6** fails as stated: with several members sharing the earliest
`createdAt`, the code applies no id tie-break — here the elected contact does
not have the lowest id among the tied members. -/
theorem c6_counterexample :
    ¬ (∀ c ∈ resolveGroup tiedStore (some "a") none,
        c.createdAt = (electOf tiedStore (some "a") none).createdAt →
          (electOf tiedStore (some "a") none).id ≤ c.id) := by
  intro h
  exact absurd (h tiedA (by decide) (by decide)) (by decide)

/-- **C6** (amended): the elected primary is a member of the resolved group
with the earliest `createdAt`; when several members are tied at the earliest
timestamp, no id tie-break is applied — the election takes the first minimal
element of the stably sorted group, so discovery order decides. -/
theorem c6_elect_earliest (contacts : List Contact) (e p : Option String)
    (hseed : seedMatches contacts e p ≠ []) :
    electOf contacts e p ∈ resolveGroup contacts e p ∧
      ∀ c ∈ resolveGroup contacts e p,
        (electOf contacts e p).createdAt ≤ c.createdAt :=
  ⟨elect_mem hseed, elect_min hseed⟩

/-- Witness for C6 on the tied store. -/
theorem c6_witness :
    (seedMatches tiedStore (some "a") none ≠ []) ∧
    (electOf tiedStore (some "a") none ∈ resolveGroup tiedStore (some "a") none ∧
      ∀ c ∈ resolveGroup tiedStore (some "a") none,
        (electOf tiedStore (some "a") none).createdAt ≤ c.createdAt) :=
  ⟨by decide, c6_elect_earliest tiedStore (some "a") none (by decide)⟩

/-! ## Claim C8: input validation -/

/-- **C8**: when both email and phone are absent or empty after
normalization, the call fails with `InvalidInput` before any transaction
attempt: zero attempts, no delay, no store write, and no retry, for every
possible sequence of transaction outcomes. -/
theorem c8_invalid_input (o : Nat → AttemptOutcome) (s : Store) (now : Nat)
    (input : IdRequest)
    (h : normalizeEmail input.email = none ∧
      normalizePhone input.phoneNumber = none) :
    identifyContact o s now input =
      { attempts := 0, delays := [], result := .error .invalidInput,
        finalStore := s } := by
  unfold identifyContact
  rw [if_pos h]

/-- Witness for C8: the empty-strings request on a nonempty store. -/
theorem c8_witness :
    (normalizeEmail (some "") = none ∧ normalizePhone (some "") = none) ∧
      identifyContact (fun _ => .ok) ⟨[legacyUpper], 2⟩ 7 ⟨some "", some ""⟩ =
        { attempts := 0, delays := [], result := .error .invalidInput,
          finalStore := ⟨[legacyUpper], 2⟩ } :=
  ⟨⟨by decide, by decide⟩,
    c8_invalid_input (fun _ => .ok) ⟨[legacyUpper], 2⟩ 7 ⟨some "", some ""⟩
      ⟨by decide, by decide⟩⟩

/-! ## Claim C9: the serializable retry policy -/

/-- **C9**: a serialization conflict retries the whole reconciliation from
scratch (each retry runs on the original, rolled-back store) up to 3
attempts, sleeping `20ms × attempt` between attempts; exhausting the budget
surfaces the conflict; any other store failure is surfaced immediately with
no further attempt. -/
theorem c9_retry_policy (o : Nat → AttemptOutcome) (s : Store) (now : Nat)
    (input : IdRequest)
    (hvalid : ¬ (normalizeEmail input.email = none ∧
      normalizePhone input.phoneNumber = none)) :
    (o 1 = .ok → identifyContact o s now input =
      { attempts := 1, delays := [], result := .ok (identifyTx s now input).1,
        finalStore := (identifyTx s now input).2 }) ∧
    (o 1 = .otherErr → identifyContact o s now input =
      { attempts := 1, delays := [], result := .error .storeError,
        finalStore := s }) ∧
    (o 1 = .conflictErr → o 2 = .ok → identifyContact o s now input =
      { attempts := 2, delays := [20], result := .ok (identifyTx s now input).1,
        finalStore := (identifyTx s now input).2 }) ∧
    (o 1 = .conflictErr → o 2 = .otherErr → identifyContact o s now input =
      { attempts := 2, delays := [20], result := .error .storeError,
        finalStore := s }) ∧
    (o 1 = .conflictErr → o 2 = .conflictErr → o 3 = .ok →
      identifyContact o s now input =
      { attempts := 3, delays := [20, 40],
        result := .ok (identifyTx s now input).1,
        finalStore := (identifyTx s now input).2 }) ∧
    (o 1 = .conflictErr → o 2 = .conflictErr → o 3 = .otherErr →
      identifyContact o s now input =
      { attempts := 3, delays := [20, 40], result := .error .storeError,
        finalStore := s }) ∧
    (o 1 = .conflictErr → o 2 = .conflictErr → o 3 = .conflictErr →
      identifyContact o s now input =
      { attempts := 3, delays := [20, 40], result := .error .conflict,
        finalStore := s }) := by
  unfold identifyContact
  rw [if_neg hvalid]
  refine ⟨?_, ?_, ?_, ?_, ?_, ?_, ?_⟩
  · intro h1; simp [attemptLoop, h1, MAX_SERIALIZABLE_RETRIES]
  · intro h1; simp [attemptLoop, h1, MAX_SERIALIZABLE_RETRIES]
  · intro h1 h2; simp [attemptLoop, h1, h2, MAX_SERIALIZABLE_RETRIES]
  · intro h1 h2; simp [attemptLoop, h1, h2, MAX_SERIALIZABLE_RETRIES]
  · intro h1 h2 h3; simp [attemptLoop, h1, h2, h3, MAX_SERIALIZABLE_RETRIES]
  · intro h1 h2 h3; simp [attemptLoop, h1, h2, h3, MAX_SERIALIZABLE_RETRIES]
  · intro h1 h2 h3; simp [attemptLoop, h1, h2, h3, MAX_SERIALIZABLE_RETRIES]

/-- Witness for C9: three consecutive conflicts surface the conflict after
the full budget with delays 20ms and 40ms. -/
theorem c9_witness :
    identifyContact (fun _ => .conflictErr) ⟨[], 1⟩ 1 ⟨some "a", none⟩ =
      { attempts := 3, delays := [20, 40], result := .error .conflict,
        finalStore := ⟨[], 1⟩ } :=
  (c9_retry_policy (fun _ => .conflictErr) ⟨[], 1⟩ 1 ⟨some "a", none⟩
    (by decide)).2.2.2.2.2.2 rfl rfl rfl



section FrameFacts

variable {s : Store} {now : Nat} {e p : Option String}

/-- The id returned as primary is always the elected contact's id. -/
theorem freshOf_id (s : Store) (now : Nat) (e p : Option String) :
    (freshOf s now e p).id = (electOf s.contacts e p).id := by
  unfold freshOf
  cases hf : (finalGroupOf s now e p).find?
      (fun c => decide (c.id = (electOf s.contacts e p).id)) with
  | none => rfl
  | some a =>
    have := List.find?_some hf
    simp only [decide_eq_true_eq] at this
    simpa using this

/-- The update applied to a demoted row. -/
def demotedVersion (pid : Nat) (c : Contact) : Contact :=
  { c with linkPrecedence := .secondary, linkedId := some pid }

/-- The row update condition of the merge (C10's characterization). -/
def updatedRow (contacts : List Contact) (e p : Option String) (c : Contact) : Prop :=
  c ∈ resolveGroup contacts e p ∧ c.id ≠ (electOf contacts e p).id ∧
    c.linkPrecedence = .primary

theorem demId_iff_updatedRow (hnodup : (s.contacts.map Contact.id).Nodup)
    {c : Contact} (hc : c ∈ s.contacts) :
    c.id ∈ demIds s e p ↔ updatedRow s.contacts e p c := by
  constructor
  · intro h
    exact mem_otherPrimaries.mp (mem_others_of_id_demoted hnodup hc h)
  · intro h
    exact List.mem_map.mpr ⟨c, mem_otherPrimaries.mpr h, rfl⟩

end FrameFacts

/-! ## Claim C10: the frame of the merge update -/

/-- **C10**: on a non-empty resolved group the only pre-existing rows ever
updated are group members other than the elected contact whose current
`linkPrecedence` is primary (each becoming secondary linked to the elected
id); the elected contact's own row and every other pre-existing row —
including every secondary — stay byte-for-byte unchanged; every post-state
row is a (possibly updated) pre-state row or the one freshly created
secondary; and the call returns the elected contact's id as primary id even
when its stored row remains secondary. -/
theorem c10_frame (s : Store) (now : Nat) (input : IdRequest)
    (hnodup : (s.contacts.map Contact.id).Nodup)
    (hseed : seedMatches s.contacts (normalizeEmail input.email)
      (normalizePhone input.phoneNumber) ≠ []) :
    (∀ c ∈ s.contacts,
      ¬ updatedRow s.contacts (normalizeEmail input.email)
          (normalizePhone input.phoneNumber) c →
        c ∈ (identifyTx s now input).2.contacts) ∧
    (∀ c ∈ s.contacts,
      updatedRow s.contacts (normalizeEmail input.email)
          (normalizePhone input.phoneNumber) c →
        demotedVersion (electOf s.contacts (normalizeEmail input.email)
            (normalizePhone input.phoneNumber)).id c ∈
          (identifyTx s now input).2.contacts) ∧
    (∀ x ∈ (identifyTx s now input).2.contacts,
      (∃ c ∈ s.contacts,
        (¬ updatedRow s.contacts (normalizeEmail input.email)
            (normalizePhone input.phoneNumber) c ∧ x = c) ∨
        (updatedRow s.contacts (normalizeEmail input.email)
            (normalizePhone input.phoneNumber) c ∧
          x = demotedVersion (electOf s.contacts (normalizeEmail input.email)
            (normalizePhone input.phoneNumber)).id c)) ∨
      x = newSecondary s now (normalizeEmail input.email)
        (normalizePhone input.phoneNumber)) ∧
    (identifyTx s now input).1.primaryContatctId =
      (electOf s.contacts (normalizeEmail input.email)
        (normalizePhone input.phoneNumber)).id := by
  have htx : identifyTx s now input =
      identifyMerge s now (normalizeEmail input.email)
        (normalizePhone input.phoneNumber) := by
    rw [identifyTx_cases, if_neg hseed]
  rw [htx]
  have hcontacts : (identifyMerge s now (normalizeEmail input.email)
      (normalizePhone input.phoneNumber)).2.contacts =
      contacts2Of s now (normalizeEmail input.email)
        (normalizePhone input.phoneNumber) := rfl
  rw [hcontacts]
  refine ⟨?_, ?_, ?_, ?_⟩
  · intro c hc hupd
    have hid : c.id ∉ demIds s (normalizeEmail input.email)
        (normalizePhone input.phoneNumber) :=
      fun h => hupd ((demId_iff_updatedRow hnodup hc).mp h)
    refine mem_contacts2.mpr (Or.inl ⟨c, hc, ?_⟩)
    rw [dmFun_of_notMem hid]
  · intro c hc hupd
    have hid : c.id ∈ demIds s (normalizeEmail input.email)
        (normalizePhone input.phoneNumber) :=
      (demId_iff_updatedRow hnodup hc).mpr hupd
    refine mem_contacts2.mpr (Or.inl ⟨c, hc, ?_⟩)
    rw [dmFun_of_mem hid]
    rfl
  · intro x hx
    rcases mem_contacts2.mp hx with ⟨c, hc, rfl⟩ | ⟨-, rfl⟩
    · left
      refine ⟨c, hc, ?_⟩
      by_cases hid : c.id ∈ demIds s (normalizeEmail input.email)
          (normalizePhone input.phoneNumber)
      · exact Or.inr ⟨(demId_iff_updatedRow hnodup hc).mp hid,
          by rw [dmFun_of_mem hid]; rfl⟩
      · refine Or.inl ⟨fun h => hid ((demId_iff_updatedRow hnodup hc).mpr h), ?_⟩
        rw [dmFun_of_notMem hid]
    · exact Or.inr rfl
  · exact freshOf_id s now (normalizeEmail input.email) (normalizePhone input.phoneNumber)

/-- The store whose earliest group member is a stored secondary. -/
def staleSecondary : Contact := ⟨1, some "a", none, .secondary, some 2, 0, none⟩

def lateprimary : Contact := ⟨2, some "a", none, .primary, none, 1, none⟩

def staleStore : Store := ⟨[staleSecondary, lateprimary], 3⟩

/-- Witness for C10 on a store whose earliest-created group member is a
stored secondary: it is returned as primary id, row untouched. -/
theorem c10_witness :
    ((staleStore.contacts.map Contact.id).Nodup ∧
      seedMatches staleStore.contacts (normalizeEmail (some "a"))
        (normalizePhone none) ≠ []) ∧
    ((∀ c ∈ staleStore.contacts,
      ¬ updatedRow staleStore.contacts (normalizeEmail (some "a"))
          (normalizePhone none) c →
        c ∈ (identifyTx staleStore 5 ⟨some "a", none⟩).2.contacts) ∧
    (∀ c ∈ staleStore.contacts,
      updatedRow staleStore.contacts (normalizeEmail (some "a"))
          (normalizePhone none) c →
        demotedVersion (electOf staleStore.contacts (normalizeEmail (some "a"))
            (normalizePhone none)).id c ∈
          (identifyTx staleStore 5 ⟨some "a", none⟩).2.contacts) ∧
    (∀ x ∈ (identifyTx staleStore 5 ⟨some "a", none⟩).2.contacts,
      (∃ c ∈ staleStore.contacts,
        (¬ updatedRow staleStore.contacts (normalizeEmail (some "a"))
            (normalizePhone none) c ∧ x = c) ∨
        (updatedRow staleStore.contacts (normalizeEmail (some "a"))
            (normalizePhone none) c ∧
          x = demotedVersion (electOf staleStore.contacts (normalizeEmail (some "a"))
            (normalizePhone none)).id c)) ∨
      x = newSecondary staleStore 5 (normalizeEmail (some "a"))
        (normalizePhone none)) ∧
    (identifyTx staleStore 5 ⟨some "a", none⟩).1.primaryContatctId =
      (electOf staleStore.contacts (normalizeEmail (some "a"))
        (normalizePhone none)).id) :=
  ⟨⟨by decide, by decide⟩,
    c10_frame staleStore 5 ⟨some "a", none⟩ (by decide) (by decide)⟩



/-! ## Claim C5: the secondary-creation decision -/

/-- **C5**: on a non-empty resolved group a new secondary row — carrying the
request's normalized email and phone, `linkPrecedence = secondary`, and
`linkedId` = the elected primary's id — is created iff the request's email
is present and missing from the rooted group's normalized emails, or its
phone is present and missing from the rooted group's normalized phones;
otherwise no row is created (in particular a request supplying only
already-covered attributes never creates a row, regardless of whether the
other attribute is absent). -/
theorem c5_secondary_creation (s : Store) (now : Nat) (input : IdRequest)
    (hseed : seedMatches s.contacts (normalizeEmail input.email)
      (normalizePhone input.phoneNumber) ≠ []) :
    ((∃ v, normalizeEmail input.email = some v ∧
        v ∉ existEOf s.contacts (normalizeEmail input.email)
          (normalizePhone input.phoneNumber)) ∨
     (∃ v, normalizePhone input.phoneNumber = some v ∧
        v ∉ existPOf s.contacts (normalizeEmail input.email)
          (normalizePhone input.phoneNumber)) →
      (identifyTx s now input).2.contacts =
        demotedOf s.contacts (normalizeEmail input.email)
            (normalizePhone input.phoneNumber) ++
          [newContact s.nextId (normalizeEmail input.email)
            (normalizePhone input.phoneNumber) .secondary
            (some (electOf s.contacts (normalizeEmail input.email)
              (normalizePhone input.phoneNumber)).id) now] ∧
      (identifyTx s now input).2.nextId = s.nextId + 1) ∧
    (¬ ((∃ v, normalizeEmail input.email = some v ∧
        v ∉ existEOf s.contacts (normalizeEmail input.email)
          (normalizePhone input.phoneNumber)) ∨
      (∃ v, normalizePhone input.phoneNumber = some v ∧
        v ∉ existPOf s.contacts (normalizeEmail input.email)
          (normalizePhone input.phoneNumber))) →
      (identifyTx s now input).2.contacts =
        demotedOf s.contacts (normalizeEmail input.email)
          (normalizePhone input.phoneNumber) ∧
      (identifyTx s now input).2.nextId = s.nextId ∧
      (identifyTx s now input).2.contacts.length = s.contacts.length) := by
  have htx : identifyTx s now input =
      identifyMerge s now (normalizeEmail input.email)
        (normalizePhone input.phoneNumber) := by
    rw [identifyTx_cases, if_neg hseed]
  rw [htx]
  constructor
  · intro hdc
    have hdc2 : doCreateOf s.contacts (normalizeEmail input.email)
        (normalizePhone input.phoneNumber) := hdc
    constructor
    · show contacts2Of s now (normalizeEmail input.email)
        (normalizePhone input.phoneNumber) = _
      unfold contacts2Of
      rw [if_pos hdc2]
      rfl
    · show nextId2Of s (normalizeEmail input.email)
        (normalizePhone input.phoneNumber) = _
      unfold nextId2Of
      rw [if_pos hdc2]
  · intro hdc
    have hdc2 : ¬ doCreateOf s.contacts (normalizeEmail input.email)
        (normalizePhone input.phoneNumber) := hdc
    refine ⟨?_, ?_, ?_⟩
    · show contacts2Of s now (normalizeEmail input.email)
        (normalizePhone input.phoneNumber) = _
      unfold contacts2Of
      rw [if_neg hdc2]
    · show nextId2Of s (normalizeEmail input.email)
        (normalizePhone input.phoneNumber) = _
      unfold nextId2Of
      rw [if_neg hdc2]
    · show (contacts2Of s now (normalizeEmail input.email)
        (normalizePhone input.phoneNumber)).length = _
      unfold contacts2Of
      rw [if_neg hdc2, demotedOf_eq_map, List.length_map]

/-- A one-primary store used by several witnesses. -/
def soloPrimary : Contact := ⟨1, some "a", none, .primary, none, 1, none⟩

def soloStore : Store := ⟨[soloPrimary], 2⟩

/-- Witness for C5: a known email with a new phone creates the secondary. -/
theorem c5_witness :
    (seedMatches soloStore.contacts (normalizeEmail (some "a"))
      (normalizePhone (some "5")) ≠ []) ∧
    ((identifyTx soloStore 2 ⟨some "a", some "5"⟩).2.contacts =
      demotedOf soloStore.contacts (normalizeEmail (some "a"))
          (normalizePhone (some "5")) ++
        [newContact soloStore.nextId (normalizeEmail (some "a"))
          (normalizePhone (some "5")) .secondary
          (some (electOf soloStore.contacts (normalizeEmail (some "a"))
            (normalizePhone (some "5"))).id) 2] ∧
      (identifyTx soloStore 2 ⟨some "a", some "5"⟩).2.nextId =
        soloStore.nextId + 1) :=
  ⟨by decide,
    (c5_secondary_creation soloStore 2 ⟨some "a", some "5"⟩ (by decide)).1
      (by decide)⟩

/-! ## Claim C4: the cluster Linkage invariant -/

/-- The specification's claimed invariant: within each connected cluster of
non-deleted contacts exactly one primary, every other member linked to it,
and no `linkedId` targets a secondary. -/
def ClaimedLinkInvariant (s : Store) : Prop :=
  ∀ c ∈ s.contacts,
    (∃ prim, prim ∈ s.contacts ∧ reaches s.contacts c prim ∧
      prim.linkPrecedence = .primary ∧
      ∀ d, d ∈ s.contacts → reaches s.contacts c d → d ≠ prim →
        d.linkPrecedence = .secondary ∧ d.linkedId = some prim.id) ∧
    (∀ t ∈ s.contacts, c.linkedId = some t.id → t.linkPrecedence = .primary)

/-- Reconcile trace: email `x`; phone `5`; the bridging request `x`+`5`
(which demotes the phone-only primary without materializing a row); then a
new email `z` over the demoted row's phone. -/
def trace1 : Store := (identifyTx ⟨[], 1⟩ 1 ⟨some "x", none⟩).2

def trace2 : Store := (identifyTx trace1 2 ⟨none, some "5"⟩).2

def trace3 : Store := (identifyTx trace2 3 ⟨some "x", some "5"⟩).2

def trace4 : Store := (identifyTx trace3 4 ⟨some "z", some "5"⟩).2

theorem trace1_reachable : Reachable trace1 :=
  Reachable.step ⟨[], 1⟩ 1 ⟨some "x", none⟩ Reachable.empty
    (by intro c hc; cases hc) (by decide)

theorem trace2_reachable : Reachable trace2 :=
  Reachable.step trace1 2 ⟨none, some "5"⟩ trace1_reachable (by decide) (by decide)

theorem trace3_reachable : Reachable trace3 :=
  Reachable.step trace2 3 ⟨some "x", some "5"⟩ trace2_reachable (by decide) (by decide)

theorem trace4_reachable : Reachable trace4 :=
  Reachable.step trace3 4 ⟨some "z", some "5"⟩ trace3_reachable (by decide) (by decide)

/-- The row created by the fourth call: it links to contact 2, which is by
then a demoted secondary. -/
def traceRow3 : Contact := ⟨3, some "z", some "5", .secondary, some 2, 4, none⟩

/-- Contact 2 after the bridge call demoted it. -/
def traceRow2 : Contact := ⟨2, none, some "5", .secondary, some 1, 2, none⟩

/-- **C4** fails as stated: in the reachable store `trace4` the row with id 3
has `linkedId = 2` while contact 2 is itself a secondary — a link targets a
secondary, and (contact 2's cluster having lost its primary to the bridge)
no cluster member links to its cluster's primary. -/
theorem c4_counterexample : Reachable trace4 ∧ ¬ ClaimedLinkInvariant trace4 := by
  refine ⟨trace4_reachable, ?_⟩
  intro h
  have h3 : traceRow3 ∈ trace4.contacts := by decide
  have h2 : traceRow2 ∈ trace4.contacts := by decide
  have := (h traceRow3 h3).2 traceRow2 h2 (by decide)
  exact absurd this (by decide)

/-- **C4** (amended): in every reachable store, each connected cluster has
*at most* one primary (a cluster can transiently have none, when a bridging
request demoted its primary without materializing a row); a contact is
primary iff its `linkedId` is null; and every secondary's `linkedId` refers
to an existing strictly older contact — which may itself be secondary, so
links need not target the cluster's current primary. -/
theorem c4_link_invariant (s : Store) (h : Reachable s) :
    (∀ q ∈ s.contacts, ∀ r ∈ s.contacts, q.linkPrecedence = .primary →
      r.linkPrecedence = .primary → reaches s.contacts q r → q = r) ∧
    (∀ c ∈ s.contacts, (c.linkPrecedence = .primary ↔ c.linkedId = none)) ∧
    (∀ c ∈ s.contacts, ∀ j, c.linkedId = some j →
      ∃ d ∈ s.contacts, d.id = j ∧ d.createdAt < c.createdAt) := by
  obtain ⟨hwf, hpm⟩ := reachable_invariants h
  refine ⟨?_, hwf.link, hwf.linkTarget⟩
  intro q hq r hr hqp hrp hreach
  have h1 : q.createdAt ≤ r.createdAt := hpm q hq hqp r hreach
  have h2 : r.createdAt ≤ q.createdAt :=
    hpm r hr hrp q (reaches_symm hq (hwf.live q hq) hreach)
  exact wf_created_inj hwf q hq r hr (Nat.le_antisymm h1 h2)

/-- Witness for C4 on the reachable store `trace4`. -/
theorem c4_witness :
    Reachable trace4 ∧
    ((∀ q ∈ trace4.contacts, ∀ r ∈ trace4.contacts,
      q.linkPrecedence = .primary → r.linkPrecedence = .primary →
      reaches trace4.contacts q r → q = r) ∧
    (∀ c ∈ trace4.contacts, (c.linkPrecedence = .primary ↔ c.linkedId = none)) ∧
    (∀ c ∈ trace4.contacts, ∀ j, c.linkedId = some j →
      ∃ d ∈ trace4.contacts, d.id = j ∧ d.createdAt < c.createdAt)) :=
  ⟨trace4_reachable, c4_link_invariant trace4 trace4_reachable⟩



/-! ## Claim C2: oldest primary wins a merge -/

theorem expandStep_nil_of_nil (contacts : List Contact) :
    expandStep contacts [] = [] := by
  unfold expandStep
  have : contacts.filter (fun c => decide
      (c.deletedAt = none ∧ c.id ∉ ([] : List Contact).map Contact.id ∧
        matchesValues (([] : List Contact).filterMap Contact.email)
          (([] : List Contact).filterMap Contact.phoneNumber) c)) = [] := by
    apply List.filter_eq_nil_iff.mpr
    intro c hc
    simp only [decide_eq_true_eq, not_and]
    intro _ _
    rintro (⟨v, hv, -⟩ | ⟨v, hv, -⟩) <;> cases hv
  rw [this]
  rfl

theorem resolveGroup_of_seed_nil {contacts : List Contact} {e p : Option String}
    (h : seedMatches contacts e p = []) : resolveGroup contacts e p = [] := by
  unfold resolveGroup
  rw [h]
  cases hfuel : contacts.length with
  | zero => rfl
  | succ n =>
    show expandLoop (n + 1) contacts [] = []
    simp only [expandLoop, expandStep_nil_of_nil, if_pos]

/-- In a store satisfying the reconcile invariants, once a resolved group
contains two distinct primaries, the older one is a `createdAt`-minimum of
the whole group: the group is covered by the two primaries' clusters. -/
theorem group_min_of_two_primaries {s : Store} {e p : Option String}
    (hwf : StoreWF s) (hpm : PrimMin s) {P1 P2 : Contact}
    (h1 : P1 ∈ resolveGroup s.contacts e p)
    (h2 : P2 ∈ resolveGroup s.contacts e p)
    (hp1 : P1.linkPrecedence = .primary) (hp2 : P2.linkPrecedence = .primary)
    (hlt : P1.createdAt < P2.createdAt) :
    ∀ c ∈ resolveGroup s.contacts e p, P1.createdAt ≤ c.createdAt := by
  have hnodup := wf_ids_nodup hwf
  have hseedlive := seedMatches_subLive s.contacts e p
  -- the two primaries are in different clusters
  have hnotPP : ¬ reaches s.contacts P1 P2 := by
    intro hr
    have hmem1 : P1 ∈ s.contacts := ((resolveGroup_subLive s.contacts e p) P1 h1).1
    have hmem2 : P2 ∈ s.contacts := ((resolveGroup_subLive s.contacts e p) P2 h2).1
    have := hpm P2 hmem2 hp2 P1 (reaches_symm hmem1 (hwf.live P1 hmem1) hr)
    omega
  -- seed members on the same side of the query are directly connected
  have hside : ∀ x ∈ seedMatches s.contacts e p,
      (e ≠ none ∧ x.email = e) ∨ (p ≠ none ∧ x.phoneNumber = p) :=
    fun x hx => (mem_seedMatches.mp hx).2.2
  have hsidestep : ∀ x, ∀ y ∈ seedMatches s.contacts e p,
      sharesValue x y → reaches s.contacts x y := by
    intro x y hy hs
    exact Relation.ReflTransGen.single ⟨(hseedlive y hy).1, (hseedlive y hy).2, hs⟩
  have hEshare : ∀ {x y : Contact}, e ≠ none → x.email = e → y.email = e →
      sharesValue x y := by
    intro x y hne hx hy
    exact Or.inl ⟨by rw [hx]; exact hne, by rw [hx, hy]⟩
  have hPshare : ∀ {x y : Contact}, p ≠ none → x.phoneNumber = p →
      y.phoneNumber = p → sharesValue x y := by
    intro x y hne hx hy
    exact Or.inr ⟨by rw [hx]; exact hne, by rw [hx, hy]⟩
  -- decompose the three memberships into seed-rooted paths
  intro c hc
  rcases (resolveGroup_component hnodup P1).mp h1 with ⟨sA, hsA, hrA⟩
  rcases (resolveGroup_component hnodup P2).mp h2 with ⟨sB, hsB, hrB⟩
  rcases (resolveGroup_component hnodup c).mp hc with ⟨s1, hs1, hr1⟩
  have hrAs : reaches s.contacts P1 sA :=
    reaches_symm (hseedlive sA hsA).1 (hseedlive sA hsA).2 hrA
  have hrBs : reaches s.contacts P2 sB :=
    reaches_symm (hseedlive sB hsB).1 (hseedlive sB hsB).2 hrB
  have viaP1 : sharesValue sA s1 → P1.createdAt ≤ c.createdAt := by
    intro hs
    have : reaches s.contacts P1 c :=
      reaches_trans hrAs (reaches_trans (hsidestep sA s1 hs1 hs) hr1)
    exact hpm P1 ((resolveGroup_subLive s.contacts e p) P1 h1).1 hp1 c this
  have viaP2 : sharesValue sB s1 → P1.createdAt ≤ c.createdAt := by
    intro hs
    have : reaches s.contacts P2 c :=
      reaches_trans hrBs (reaches_trans (hsidestep sB s1 hs1 hs) hr1)
    have := hpm P2 ((resolveGroup_subLive s.contacts e p) P2 h2).1 hp2 c this
    omega
  have contraAB : sharesValue sA sB → False := by
    intro hs
    exact hnotPP (reaches_trans hrAs (reaches_trans (hsidestep sA sB hsB hs) hrB))
  rcases hside s1 hs1 with ⟨hne1, hm1⟩ | ⟨hne1, hm1⟩ <;>
    rcases hside sA hsA with ⟨hneA, hmA⟩ | ⟨hneA, hmA⟩ <;>
    rcases hside sB hsB with ⟨hneB, hmB⟩ | ⟨hneB, hmB⟩
  · exact viaP1 (hEshare hneA hmA hm1)
  · exact viaP1 (hEshare hneA hmA hm1)
  · exact viaP2 (hEshare hneB hmB hm1)
  · exact absurd (hPshare hneA hmA hmB) contraAB
  · exact absurd (hEshare hneA hmA hmB) contraAB
  · exact viaP2 (hPshare hneB hmB hm1)
  · exact viaP1 (hPshare hneA hmA hm1)
  · exact viaP1 (hPshare hneA hmA hm1)

/-- **C2**: in a reachable store, when the resolved cluster of a call
contains two primaries P1 and P2 with P1 created earlier, the call answers
with P1's id as the primary id, and P2's row is updated to
`linkPrecedence = secondary` with `linkedId = P1.id`. -/
theorem c2_oldest_wins (s : Store) (now : Nat) (input : IdRequest)
    (hreach : Reachable s) {P1 P2 : Contact}
    (h1 : P1 ∈ resolveGroup s.contacts (normalizeEmail input.email)
      (normalizePhone input.phoneNumber))
    (h2 : P2 ∈ resolveGroup s.contacts (normalizeEmail input.email)
      (normalizePhone input.phoneNumber))
    (hp1 : P1.linkPrecedence = .primary) (hp2 : P2.linkPrecedence = .primary)
    (hlt : P1.createdAt < P2.createdAt) :
    (identifyTx s now input).1.primaryContatctId = P1.id ∧
      demotedVersion P1.id P2 ∈ (identifyTx s now input).2.contacts := by
  obtain ⟨hwf, hpm⟩ := reachable_invariants hreach
  have hseedne : seedMatches s.contacts (normalizeEmail input.email)
      (normalizePhone input.phoneNumber) ≠ [] := by
    intro h
    rw [resolveGroup_of_seed_nil h] at h1
    cases h1
  have hgmin := group_min_of_two_primaries hwf hpm h1 h2 hp1 hp2 hlt
  have hPmem := elect_mem hseedne
  have helect : electOf s.contacts (normalizeEmail input.email)
      (normalizePhone input.phoneNumber) = P1 := by
    have hle1 : P1.createdAt ≤ (electOf s.contacts (normalizeEmail input.email)
        (normalizePhone input.phoneNumber)).createdAt := hgmin _ hPmem
    have hle2 := elect_min hseedne P1 h1
    refine wf_created_inj hwf _ ?_ _ ?_ (Nat.le_antisymm hle2 hle1)
    · exact ((resolveGroup_subLive s.contacts _ _) _ hPmem).1
    · exact ((resolveGroup_subLive s.contacts _ _) _ h1).1
  have htx : identifyTx s now input =
      identifyMerge s now (normalizeEmail input.email)
        (normalizePhone input.phoneNumber) := by
    rw [identifyTx_cases, if_neg hseedne]
  rw [htx]
  have hP2mem : P2 ∈ s.contacts := ((resolveGroup_subLive s.contacts _ _) _ h2).1
  have hne : P2.id ≠ P1.id := by
    intro h
    have : P2 = P1 :=
      wf_id_inj hwf P2 hP2mem P1 ((resolveGroup_subLive s.contacts _ _) _ h1).1 h
    rw [this] at hlt
    exact Nat.lt_irrefl _ hlt
  constructor
  · show (freshOf s now (normalizeEmail input.email)
      (normalizePhone input.phoneNumber)).id = P1.id
    rw [freshOf_id, helect]
  · have hid : P2.id ∈ demIds s (normalizeEmail input.email)
        (normalizePhone input.phoneNumber) := by
      refine List.mem_map.mpr ⟨P2, mem_otherPrimaries.mpr ⟨h2, ?_, hp2⟩, rfl⟩
      rw [helect]
      exact hne
    show demotedVersion P1.id P2 ∈ contacts2Of s now (normalizeEmail input.email)
      (normalizePhone input.phoneNumber)
    refine mem_contacts2.mpr (Or.inl ⟨P2, hP2mem, ?_⟩)
    rw [dmFun_of_mem hid, helect]
    rfl

/-- The two independently created primaries of the reconcile trace. -/
def tracePrimary1 : Contact := ⟨1, some "x", none, .primary, none, 1, none⟩

def tracePrimary2 : Contact := ⟨2, none, some "5", .primary, none, 2, none⟩

/-- Witness for C2: the bridge request over the two-primary trace store
returns the older primary and demotes the younger one onto it. -/
theorem c2_witness :
    Reachable trace2 ∧
      ((identifyTx trace2 3 ⟨some "x", some "5"⟩).1.primaryContatctId =
        tracePrimary1.id ∧
      demotedVersion tracePrimary1.id tracePrimary2 ∈
        (identifyTx trace2 3 ⟨some "x", some "5"⟩).2.contacts) :=
  ⟨trace2_reachable,
    c2_oldest_wins trace2 3 ⟨some "x", some "5"⟩ trace2_reachable
      (by decide) (by decide) (by decide) (by decide) (by decide)⟩



/-! ## Claim C7: the response projector -/

/-- First-occurrence deduplication with an explicit duplicate relation. -/
def dedupByR (r : String → String → Bool) : List String → List String → List String
  | _, [] => []
  | seen, v :: l =>
    if seen.any (fun w => r w v) then dedupByR r seen l
    else v :: dedupByR r (v :: seen) l

/-- The specification's value list: the primary's own value first (when
set), then the remaining values of the `createdAt`-sorted group in order of
first carrier, duplicates removed by the relation `r`. -/
def specValues (r : String → String → Bool) (primVal : Option String)
    (vals : List String) : List String :=
  match primVal with
  | some v => v :: dedupByR r [v] vals
  | none => dedupByR r [] vals

/-- Duplicate by exact stored value. -/
def rawDup (a b : String) : Bool := decide (a = b)

/-- Duplicate by normalized value (the claim's wording). -/
def normEmailDup (a b : String) : Bool :=
  decide (normalizeEmail (some a) = normalizeEmail (some b))

theorem dedupByR_rawDup (l : List String) :
    ∀ seen, dedupByR rawDup seen l = dedupKeepFirst seen l := by
  induction l with
  | nil => intro seen; rfl
  | cons v l ih =>
    intro seen
    unfold dedupByR dedupKeepFirst
    by_cases hv : v ∈ seen
    · rw [if_pos ?_, if_pos hv]
      · exact ih seen
      · exact List.any_eq_true.mpr ⟨v, hv, by simp [rawDup]⟩
    · rw [if_neg ?_, if_neg hv, ih (v :: seen)]
      intro h
      rcases List.any_eq_true.mp h with ⟨w, hw, hwv⟩
      have : w = v := by simpa [rawDup] using hwv
      exact hv (this ▸ hw)

theorem dedupKeepFirst_filter (l : List String) :
    ∀ (seen0 seen : List String), (∀ v ∈ seen0, v ∈ seen) →
      dedupKeepFirst seen (l.filter (fun v => decide (v ∉ seen0))) =
        dedupKeepFirst seen l := by
  induction l with
  | nil => intro seen0 seen _; rfl
  | cons v l ih =>
    intro seen0 seen hsub
    by_cases hv : v ∈ seen0
    · rw [List.filter_cons_of_neg (by simpa using hv)]
      have hvs : v ∈ seen := hsub v hv
      rw [ih seen0 seen hsub]
      conv_rhs => unfold dedupKeepFirst
      rw [if_pos hvs]
    · rw [List.filter_cons_of_pos (by simpa using hv)]
      unfold dedupKeepFirst
      by_cases hvseen : v ∈ seen
      · rw [if_pos hvseen, if_pos hvseen]
        exact ih seen0 seen hsub
      · rw [if_neg hvseen, if_neg hvseen, ih seen0 (v :: seen)
          (fun w hw => List.mem_cons_of_mem v (hsub w hw))]

theorem filterMap_projectFilter (fg : List Contact)
    (get : Contact → Option String) (seen0 : List String) :
    (fg.filter (fun c => decide (∃ v, get c = some v ∧ v ∉ seen0))).filterMap get =
      (fg.filterMap get).filter (fun v => decide (v ∉ seen0)) := by
  induction fg with
  | nil => rfl
  | cons c l ih =>
    cases hg : get c with
    | none =>
      rw [List.filter_cons_of_neg (by simp [hg]), List.filterMap_cons_none hg, ih]
    | some v =>
      have hcons : (c :: l).filterMap get = v :: l.filterMap get :=
        List.filterMap_cons_some hg
      by_cases hv : v ∈ seen0
      · rw [hcons, List.filter_cons_of_neg ?_,
          List.filter_cons_of_neg (by simpa using hv), ih]
        simp only [hg, decide_eq_true_eq]
        rintro ⟨w, hw, hmem⟩
        cases Option.some.inj hw
        exact hmem hv
      · rw [hcons, List.filter_cons_of_pos ?_,
          List.filter_cons_of_pos (by simpa using hv), List.filterMap_cons_some hg, ih]
        simp only [hg, decide_eq_true_eq]
        exact ⟨v, rfl, hv⟩

/-- Filters of a sorted list need no re-sort. -/
theorem sortCreated_filter_of_sorted {fg : List Contact}
    (h : fg.Pairwise leCreated) (q : Contact → Bool) :
    sortCreated (fg.filter q) = fg.filter q :=
  sortCreated_eq_self (h.sublist (List.filter_sublist fg))

/-- The projector computes the specification's list with duplicates removed
by exact stored value. -/
theorem projectValues_spec {fg : List Contact} (h : fg.Pairwise leCreated)
    (primVal : Option String) (get : Contact → Option String) :
    projectValues primVal fg get = specValues rawDup primVal (fg.filterMap get) := by
  cases primVal with
  | some v =>
    show [v] ++ dedupKeepFirst [v]
        ((sortCreated (fg.filter (fun c => decide (∃ w, get c = some w ∧ w ∉ [v])))).filterMap get) =
      v :: dedupByR rawDup [v] (fg.filterMap get)
    rw [sortCreated_filter_of_sorted h, filterMap_projectFilter,
      dedupKeepFirst_filter _ [v] [v] (fun w hw => hw), dedupByR_rawDup]
    rfl
  | none =>
    show [] ++ dedupKeepFirst []
        ((sortCreated (fg.filter (fun c => decide (∃ w, get c = some w ∧ w ∉ ([] : List String))))).filterMap get) =
      dedupByR rawDup [] (fg.filterMap get)
    rw [sortCreated_filter_of_sorted h, filterMap_projectFilter,
      dedupKeepFirst_filter _ [] [] (fun w hw => hw), dedupByR_rawDup]
    rfl

/-! Sortedness of the secondary id list. -/

theorem mem_insNat {n x : Nat} {l : List Nat} : x ∈ insNat n l ↔ x = n ∨ x ∈ l := by
  induction l with
  | nil => simp [insNat]
  | cons m l ih =>
    by_cases h : n < m
    · simp [insNat, h, List.mem_cons]
    · simp only [insNat, if_neg h, List.mem_cons, ih]
      tauto

theorem insNat_perm (n : Nat) (l : List Nat) : (insNat n l).Perm (n :: l) := by
  induction l with
  | nil => simp [insNat]
  | cons m l ih =>
    by_cases h : n < m
    · simp [insNat, h]
    · simp only [insNat, if_neg h]
      exact (ih.cons m).trans (List.Perm.swap n m l)

theorem sortNat_perm (l : List Nat) : (sortNat l).Perm l := by
  have aux : ∀ (l acc : List Nat),
      (l.foldl (fun a n => insNat n a) acc).Perm (acc ++ l) := by
    intro l
    induction l with
    | nil => intro acc; simp
    | cons n l ih =>
      intro acc
      simp only [List.foldl_cons]
      refine (ih (insNat n acc)).trans ?_
      refine (List.Perm.append_right l (insNat_perm n acc)).trans ?_
      exact (List.perm_middle).symm
  simpa using aux l []

theorem insNat_pairwise {n : Nat} {l : List Nat} (h : l.Pairwise (· ≤ ·)) :
    (insNat n l).Pairwise (· ≤ ·) := by
  induction l with
  | nil => simp [insNat]
  | cons m l ih =>
    rcases List.pairwise_cons.mp h with ⟨hm, hl⟩
    by_cases hc : n < m
    · simp only [insNat, if_pos hc]
      refine List.pairwise_cons.mpr ⟨?_, h⟩
      intro x hx
      rcases List.mem_cons.mp hx with rfl | hx
      · exact Nat.le_of_lt hc
      · exact Nat.le_trans (Nat.le_of_lt hc) (hm x hx)
    · simp only [insNat, if_neg hc]
      refine List.pairwise_cons.mpr ⟨?_, ih hl⟩
      intro x hx
      rcases mem_insNat.mp hx with rfl | hx
      · exact Nat.le_of_not_lt hc
      · exact hm x hx

theorem sortNat_pairwise (l : List Nat) : (sortNat l).Pairwise (· ≤ ·) := by
  have aux : ∀ (l acc : List Nat), acc.Pairwise (· ≤ ·) →
      (l.foldl (fun a n => insNat n a) acc).Pairwise (· ≤ ·) := by
    intro l
    induction l with
    | nil => intro acc h; simpa using h
    | cons n l ih =>
      intro acc h
      simpa using ih (insNat n acc) (insNat_pairwise h)
  simpa [sortNat] using aux l [] List.Pairwise.nil

theorem projectSecondaryIds_sorted (fg : List Contact) (pid : Nat) :
    (projectSecondaryIds fg pid).Pairwise (· ≤ ·) :=
  sortNat_pairwise _

theorem mem_projectSecondaryIds {fg : List Contact} {pid i : Nat} :
    i ∈ projectSecondaryIds fg pid ↔
      ∃ c ∈ fg, c.linkPrecedence = .secondary ∧ c.linkedId = some pid ∧
        c.id = i := by
  unfold projectSecondaryIds
  rw [(sortNat_perm _).mem_iff]
  simp only [List.mem_map, List.mem_filter, decide_eq_true_eq]
  constructor
  · rintro ⟨c, ⟨hc, h1, h2⟩, rfl⟩
    exact ⟨c, hc, h1, h2, rfl⟩
  · rintro ⟨c, hc, h1, h2, rfl⟩
    exact ⟨c, ⟨hc, h1, h2⟩, rfl⟩



/-- Legacy store with two stored spellings of the same normalized email. -/
def dupUpper : Contact := ⟨1, some "A", some "5", .primary, none, 0, none⟩

def dupLower : Contact := ⟨2, some "a", some "5", .secondary, some 1, 1, none⟩

def dupStore : Store := ⟨[dupUpper, dupLower], 3⟩

/-- **C7** fails as stated: the code deduplicates emails by exact stored
value, not by normalized value — with stored `"A"` and `"a"` both are
returned, while the claim's normalized dedup would keep only the first. -/
theorem c7_counterexample :
    (identifyTx dupStore 5 ⟨none, some "5"⟩).1.emails ≠
      specValues normEmailDup (freshOf dupStore 5 none (some "5")).email
        ((finalGroupOf dupStore 5 none (some "5")).filterMap Contact.email) := by
  decide

/-- **C7** (amended: duplicates are removed by exact *stored* value, which
matches normalized dedup whenever stored values are normalized).  On a
non-empty resolved group the returned emails are: the primary's own email
first (when set), then every other distinct email of the final group in
ascending order of the `createdAt` of the contact that first carries it;
the same holds for phone numbers; and the returned secondary ids are
exactly the ids of the final group's members with
`linkPrecedence = secondary` and `linkedId` = the returned primary id,
sorted ascending. -/
theorem c7_projection (s : Store) (now : Nat) (input : IdRequest)
    (hseed : seedMatches s.contacts (normalizeEmail input.email)
      (normalizePhone input.phoneNumber) ≠ []) :
    (identifyTx s now input).1.emails =
      specValues rawDup
        (freshOf s now (normalizeEmail input.email)
          (normalizePhone input.phoneNumber)).email
        ((finalGroupOf s now (normalizeEmail input.email)
          (normalizePhone input.phoneNumber)).filterMap Contact.email) ∧
    (identifyTx s now input).1.phoneNumbers =
      specValues rawDup
        (freshOf s now (normalizeEmail input.email)
          (normalizePhone input.phoneNumber)).phoneNumber
        ((finalGroupOf s now (normalizeEmail input.email)
          (normalizePhone input.phoneNumber)).filterMap Contact.phoneNumber) ∧
    (identifyTx s now input).1.secondaryContactIds.Pairwise (· ≤ ·) ∧
    (∀ i, i ∈ (identifyTx s now input).1.secondaryContactIds ↔
      ∃ c ∈ finalGroupOf s now (normalizeEmail input.email)
          (normalizePhone input.phoneNumber),
        c.linkPrecedence = .secondary ∧
        c.linkedId = some (identifyTx s now input).1.primaryContatctId ∧
        c.id = i) := by
  have htx : identifyTx s now input =
      identifyMerge s now (normalizeEmail input.email)
        (normalizePhone input.phoneNumber) := by
    rw [identifyTx_cases, if_neg hseed]
  rw [htx]
  have hsorted : (finalGroupOf s now (normalizeEmail input.email)
      (normalizePhone input.phoneNumber)).Pairwise leCreated :=
    sortCreated_pairwise _
  refine ⟨?_, ?_, ?_, ?_⟩
  · exact projectValues_spec hsorted _ Contact.email
  · exact projectValues_spec hsorted _ Contact.phoneNumber
  · exact projectSecondaryIds_sorted _ _
  · intro i
    exact mem_projectSecondaryIds

/-- Witness for C7 on the legacy store (phone lookup over two rows). -/
theorem c7_witness :
    (seedMatches dupStore.contacts (normalizeEmail none)
      (normalizePhone (some "5")) ≠ []) ∧
    ((identifyTx dupStore 5 ⟨none, some "5"⟩).1.emails =
      specValues rawDup
        (freshOf dupStore 5 (normalizeEmail none)
          (normalizePhone (some "5"))).email
        ((finalGroupOf dupStore 5 (normalizeEmail none)
          (normalizePhone (some "5"))).filterMap Contact.email) ∧
    (identifyTx dupStore 5 ⟨none, some "5"⟩).1.phoneNumbers =
      specValues rawDup
        (freshOf dupStore 5 (normalizeEmail none)
          (normalizePhone (some "5"))).phoneNumber
        ((finalGroupOf dupStore 5 (normalizeEmail none)
          (normalizePhone (some "5"))).filterMap Contact.phoneNumber) ∧
    (identifyTx dupStore 5 ⟨none, some "5"⟩).1.secondaryContactIds.Pairwise
      (· ≤ ·) ∧
    (∀ i, i ∈ (identifyTx dupStore 5 ⟨none, some "5"⟩).1.secondaryContactIds ↔
      ∃ c ∈ finalGroupOf dupStore 5 (normalizeEmail none)
          (normalizePhone (some "5")),
        c.linkPrecedence = .secondary ∧
        c.linkedId = some (identifyTx dupStore 5
          ⟨none, some "5"⟩).1.primaryContatctId ∧
        c.id = i)) :=
  ⟨by decide, c7_projection dupStore 5 ⟨none, some "5"⟩ (by decide)⟩



/-! ## Idempotence of the normalizer -/

theorem char_toNat_ofNat {n : Nat} (h : n < 55296) : (Char.ofNat n).toNat = n := by
  have hv : n.isValidChar := Or.inl h
  rw [Char.ofNat, dif_pos hv]
  rfl

theorem char_eq_iff_toNat {a b : Char} : a = b ↔ a.toNat = b.toNat := by
  constructor
  · rintro rfl; rfl
  · intro h
    exact Char.ext (UInt32.toNat.inj h)

theorem isSpaceChar_eq_false_of_toNat {c : Char}
    (h : c.toNat ≠ 32 ∧ c.toNat ≠ 9 ∧ c.toNat ≠ 10 ∧ c.toNat ≠ 13 ∧
      c.toNat ≠ 11 ∧ c.toNat ≠ 12) : isSpaceChar c = false := by
  have hne : ∀ (d : Char) (m : Nat), d.toNat = m → c.toNat ≠ m →
      decide (c = d) = false :=
    fun d m hd hm => decide_eq_false (fun hc => hm (by rw [hc, hd]))
  unfold isSpaceChar
  rw [hne ' ' 32 (by decide) h.1, hne '\t' 9 (by decide) h.2.1,
    hne '\n' 10 (by decide) h.2.2.1, hne '\r' 13 (by decide) h.2.2.2.1,
    hne '\x0b' 11 (by decide) h.2.2.2.2.1, hne '\x0c' 12 (by decide) h.2.2.2.2.2]
  rfl

theorem char_toLower_of_upper {c : Char} (h : c.toNat ≥ 65 ∧ c.toNat ≤ 90) :
    c.toLower = Char.ofNat (c.toNat + 32) := by
  simp only [Char.toLower]
  rw [if_pos h]

theorem char_toLower_of_not_upper {c : Char}
    (h : ¬ (c.toNat ≥ 65 ∧ c.toNat ≤ 90)) : c.toLower = c := by
  simp only [Char.toLower]
  rw [if_neg h]

theorem char_toLower_toLower (c : Char) : c.toLower.toLower = c.toLower := by
  by_cases h : c.toNat ≥ 65 ∧ c.toNat ≤ 90
  · have ht : (Char.ofNat (c.toNat + 32)).toNat = c.toNat + 32 :=
      char_toNat_ofNat (by omega)
    rw [char_toLower_of_upper h]
    apply char_toLower_of_not_upper
    rw [ht]
    omega
  · rw [char_toLower_of_not_upper h, char_toLower_of_not_upper h]

theorem isSpaceChar_toLower (c : Char) : isSpaceChar c.toLower = isSpaceChar c := by
  by_cases h : c.toNat ≥ 65 ∧ c.toNat ≤ 90
  · have ht : (Char.ofNat (c.toNat + 32)).toNat = c.toNat + 32 :=
      char_toNat_ofNat (by omega)
    rw [char_toLower_of_upper h,
      isSpaceChar_eq_false_of_toNat (by rw [ht]; omega),
      isSpaceChar_eq_false_of_toNat (by omega)]
  · rw [char_toLower_of_not_upper h]

theorem dropWhile_dropWhile {α : Type} (q : α → Bool) (l : List α) :
    (l.dropWhile q).dropWhile q = l.dropWhile q := by
  induction l with
  | nil => rfl
  | cons a l ih =>
    by_cases h : q a
    · rw [List.dropWhile_cons_of_pos h, ih]
    · rw [List.dropWhile_cons_of_neg (by simpa using h),
        List.dropWhile_cons_of_neg (by simpa using h)]

/-- The tail-trim produces a prefix of its input. -/
theorem trim_tail_prefix (q : Char → Bool) (y : List Char) :
    ∃ t, y = (y.reverse.dropWhile q).reverse ++ t := by
  refine ⟨(y.reverse.takeWhile q).reverse, ?_⟩
  rw [← List.reverse_append, List.takeWhile_append_dropWhile, List.reverse_reverse]

theorem dropWhile_cons_head {q : Char → Bool} {l : List Char} {b : Char}
    {u : List Char} (h : l.dropWhile q = b :: u) : q b = false := by
  induction l with
  | nil => cases h
  | cons a l ih =>
    by_cases ha : q a
    · rw [List.dropWhile_cons_of_pos ha] at h
      exact ih h
    · rw [List.dropWhile_cons_of_neg (by simpa using ha)] at h
      cases h
      simpa using ha

theorem dropWhile_trimChars (l : List Char) :
    (trimChars l).dropWhile isSpaceChar = trimChars l := by
  rcases trim_tail_prefix isSpaceChar (l.dropWhile isSpaceChar) with ⟨t, ht⟩
  have ht2 : l.dropWhile isSpaceChar = trimChars l ++ t := ht
  cases hu : trimChars l with
  | nil => rfl
  | cons b u =>
    rw [hu] at ht2
    have hb : isSpaceChar b = false := dropWhile_cons_head ht2
    rw [List.dropWhile_cons_of_neg (by simp [hb])]

theorem reverse_trimChars_dropWhile (l : List Char) :
    (trimChars l).reverse.dropWhile isSpaceChar = (trimChars l).reverse := by
  unfold trimChars
  rw [List.reverse_reverse]
  exact dropWhile_dropWhile isSpaceChar _

theorem trimChars_trimChars (l : List Char) :
    trimChars (trimChars l) = trimChars l := by
  show (((trimChars l).dropWhile isSpaceChar).reverse.dropWhile isSpaceChar).reverse =
    trimChars l
  rw [dropWhile_trimChars, reverse_trimChars_dropWhile, List.reverse_reverse]

theorem map_toLower_trimChars (l : List Char) :
    trimChars (l.map Char.toLower) = (trimChars l).map Char.toLower := by
  have hcomp : (isSpaceChar ∘ Char.toLower) = isSpaceChar :=
    funext isSpaceChar_toLower
  unfold trimChars
  rw [List.dropWhile_map, hcomp, ← List.map_reverse, List.dropWhile_map, hcomp,
    ← List.map_reverse]

theorem map_toLower_toLower (l : List Char) :
    (l.map Char.toLower).map Char.toLower = l.map Char.toLower := by
  rw [List.map_map]
  have : (Char.toLower ∘ Char.toLower) = Char.toLower :=
    funext char_toLower_toLower
  rw [this]

theorem normalizeEmail_idem (x : Option String) :
    normalizeEmail (normalizeEmail x) = normalizeEmail x := by
  cases x with
  | none => rfl
  | some s =>
    by_cases h : String.mk (trimChars (s.data.map Char.toLower)) = ""
    · have h1 : normalizeEmail (some s) = none := by
        simp only [normalizeEmail]
        rw [if_pos h]
      rw [h1]
      rfl
    · have h1 : normalizeEmail (some s) =
          some (String.mk (trimChars (s.data.map Char.toLower))) := by
        simp only [normalizeEmail]
        rw [if_neg h]
      rw [h1]
      simp only [normalizeEmail]
      have hD : trimChars ((String.mk (trimChars
          (s.data.map Char.toLower))).data.map Char.toLower) =
          trimChars (s.data.map Char.toLower) := by
        show trimChars ((trimChars (s.data.map Char.toLower)).map Char.toLower) = _
        rw [← map_toLower_trimChars, map_toLower_toLower, trimChars_trimChars]
      rw [hD, if_neg h]

theorem normalizePhone_idem (x : Option String) :
    normalizePhone (normalizePhone x) = normalizePhone x := by
  cases x with
  | none => rfl
  | some s =>
    by_cases h : String.mk (s.data.filter (fun c => !isStrippedChar c)) = ""
    · have h1 : normalizePhone (some s) = none := by
        simp only [normalizePhone]
        rw [if_pos h]
      rw [h1]
      rfl
    · have h1 : normalizePhone (some s) =
          some (String.mk (s.data.filter (fun c => !isStrippedChar c))) := by
        simp only [normalizePhone]
        rw [if_neg h]
      rw [h1]
      simp only [normalizePhone]
      have hD : (String.mk (s.data.filter
          (fun c => !isStrippedChar c))).data.filter (fun c => !isStrippedChar c) =
          s.data.filter (fun c => !isStrippedChar c) := by
        show (s.data.filter (fun c => !isStrippedChar c)).filter
            (fun c => !isStrippedChar c) = _
        apply List.filter_eq_self.mpr
        intro a ha
        exact (List.mem_filter.mp ha).2
      rw [hD, if_neg h]



/-! ## Claim C3: idempotence — auxiliary computation lemmas -/

theorem expandLoop_of_fixpoint {fuel : Nat} {contacts g : List Contact}
    (h : expandStep contacts g = []) : expandLoop fuel contacts g = g := by
  cases fuel with
  | zero => rfl
  | succ n =>
    show (if expandStep contacts g = [] then g
      else expandLoop n contacts (g ++ expandStep contacts g)) = g
    rw [if_pos h]

theorem demoteIds_nil (contacts : List Contact) (pid : Nat) :
    demoteIds contacts [] pid = contacts := by
  rw [demoteIds_eq_map]
  have hf : dmFun [] pid = id := funext (fun c => dmFun_of_notMem (by simp))
  rw [hf, List.map_id]

theorem electPrimary_singleton (c : Contact) : electPrimary [c] = c := by
  show scanMin c [c] = c
  simp [scanMin]

theorem otherPrimaries_singleton (c : Contact) : otherPrimaries [c] c = [] := by
  unfold otherPrimaries
  rw [List.filter_cons_of_neg (by simp), List.filter_nil]

theorem newContact_matches {e p : Option String}
    (hvalid : ¬ (e = none ∧ p = none)) (i : Nat) (prec : Precedence)
    (lid : Option Nat) (now : Nat) :
    matchesInput e p (newContact i e p prec lid now) := by
  by_cases he : e = none
  · have hp : p ≠ none := fun hp => hvalid ⟨he, hp⟩
    exact Or.inr ⟨hp, rfl⟩
  · exact Or.inl ⟨he, rfl⟩

theorem sortCreated_singleton (c : Contact) : sortCreated [c] = [c] := rfl

/-- The run after a no-match creation changes nothing and returns the same
response. -/
theorem idem_noMatch {s : Store} {now now2 : Nat} {input : IdRequest}
    (Hlt : ∀ c ∈ s.contacts, c.id < s.nextId)
    (Hlink : ∀ c ∈ s.contacts, ∀ j, c.linkedId = some j → j < s.nextId)
    (Hvalid : ¬ (normalizeEmail input.email = none ∧
      normalizePhone input.phoneNumber = none))
    (hseed : seedMatches s.contacts (normalizeEmail input.email)
      (normalizePhone input.phoneNumber) = []) :
    identifyTx (identifyTx s now input).2 now2 input = identifyTx s now input := by
  set E := normalizeEmail input.email with hE
  set P := normalizePhone input.phoneNumber with hP
  set n := newContact s.nextId E P .primary none now with hn
  have htx1 : identifyTx s now input = identifyNoMatch s now E P := by
    rw [identifyTx_cases, if_pos hseed]
  have hs1 : (identifyNoMatch s now E P).2 =
      ⟨s.contacts ++ [n], s.nextId + 1⟩ := rfl
  have hfilter1 : s.contacts.filter
      (fun c => decide (c.deletedAt = none ∧ matchesInput E P c)) = [] := by
    apply List.filter_eq_nil_iff.mpr
    intro c hc
    simp only [decide_eq_true_eq]
    exact seedMatches_eq_nil_iff.mp hseed c hc
  have hseed2 : seedMatches (s.contacts ++ [n]) E P = [n] := by
    unfold seedMatches
    rw [List.filter_append, hfilter1,
      List.filter_cons_of_pos (by
        exact decide_eq_true
          ⟨rfl, newContact_matches Hvalid s.nextId .primary none now⟩),
      List.filter_nil, List.nil_append]
    rfl
  have hgroup2 : resolveGroup (s.contacts ++ [n]) E P = [n] := by
    unfold resolveGroup
    rw [hseed2]
    apply expandLoop_of_fixpoint
    unfold expandStep
    have : (s.contacts ++ [n]).filter (fun c => decide
        (c.deletedAt = none ∧ c.id ∉ [n].map Contact.id ∧
          matchesValues ([n].filterMap Contact.email)
            ([n].filterMap Contact.phoneNumber) c)) = [] := by
      apply List.filter_eq_nil_iff.mpr
      intro c hc
      simp only [decide_eq_true_eq, not_and]
      intro hlive hid
      rcases List.mem_append.mp hc with hcmem | hcn
      · rintro (⟨v, hv, hce⟩ | ⟨v, hv, hcp⟩)
        · rcases List.mem_filterMap.mp hv with ⟨a, ha, hae⟩
          rw [List.mem_singleton.mp ha] at hae
          have hEv : E = some v := hae
          refine seedMatches_eq_nil_iff.mp hseed c hcmem ⟨hlive, Or.inl ⟨?_, ?_⟩⟩
          · rw [hEv]; simp
          · rw [hEv]; exact hce
        · rcases List.mem_filterMap.mp hv with ⟨a, ha, hap⟩
          rw [List.mem_singleton.mp ha] at hap
          have hPv : P = some v := hap
          refine seedMatches_eq_nil_iff.mp hseed c hcmem ⟨hlive, Or.inr ⟨?_, ?_⟩⟩
          · rw [hPv]; simp
          · rw [hPv]; exact hcp
      · exfalso
        apply hid
        rw [List.mem_singleton.mp hcn]
        simp
    rw [this]
    rfl
  have hrooted2 : ∀ contacts2, contacts2 = s.contacts ++ [n] →
      rootedGroup contacts2 n.id = [n] := by
    intro contacts2 hc2
    subst hc2
    unfold rootedGroup
    rw [List.filter_append,
      List.filter_cons_of_pos (by exact decide_eq_true ⟨rfl, Or.inl rfl⟩),
      List.filter_nil]
    have : s.contacts.filter (fun c => decide
        (c.deletedAt = none ∧ (c.id = n.id ∨ c.linkedId = some n.id))) = [] := by
      apply List.filter_eq_nil_iff.mpr
      intro c hc
      simp only [decide_eq_true_eq, not_and]
      rintro - (hcid | hclid)
      · have := Hlt c hc
        have hnid : n.id = s.nextId := rfl
        omega
      · have := Hlink c hc n.id hclid
        have hnid : n.id = s.nextId := rfl
        omega
    rw [this, List.nil_append]
    rfl
  rw [htx1, hs1]
  have hseedne : seedMatches (s.contacts ++ [n]) E P ≠ [] := by
    rw [hseed2]
    exact List.cons_ne_nil n []
  have htx2 : identifyTx ⟨s.contacts ++ [n], s.nextId + 1⟩ now2 input =
      identifyMerge ⟨s.contacts ++ [n], s.nextId + 1⟩ now2 E P := by
    rw [identifyTx_cases]
    rw [← hE, ← hP]
    rw [if_neg hseedne]
  rw [htx2]
  have helect : electOf (s.contacts ++ [n]) E P = n := by
    unfold electOf
    rw [hgroup2, electPrimary_singleton]
  have hdemoted : demotedOf (s.contacts ++ [n]) E P = s.contacts ++ [n] := by
    unfold demotedOf
    rw [hgroup2, helect, otherPrimaries_singleton]
    exact demoteIds_nil _ _
  have hexistE : existEOf (s.contacts ++ [n]) E P =
      ([n].filterMap (fun c => normalizeEmail c.email)) := by
    unfold existEOf
    rw [hdemoted, helect, hrooted2 _ rfl]
  have hexistP : existPOf (s.contacts ++ [n]) E P =
      ([n].filterMap (fun c => normalizePhone c.phoneNumber)) := by
    unfold existPOf
    rw [hdemoted, helect, hrooted2 _ rfl]
  have hnemail : normalizeEmail n.email = E := by
    rw [hn]
    show normalizeEmail E = E
    rw [hE]
    exact normalizeEmail_idem input.email
  have hnphone : normalizePhone n.phoneNumber = P := by
    rw [hn]
    show normalizePhone P = P
    rw [hP]
    exact normalizePhone_idem input.phoneNumber
  have hnocreate : ¬ doCreateOf (s.contacts ++ [n]) E P := by
    rintro (⟨v, hv, hnot⟩ | ⟨v, hv, hnot⟩)
    · rw [hexistE] at hnot
      apply hnot
      refine List.mem_filterMap.mpr ⟨n, List.mem_singleton_self n, ?_⟩
      rw [hnemail, hv]
    · rw [hexistP] at hnot
      apply hnot
      refine List.mem_filterMap.mpr ⟨n, List.mem_singleton_self n, ?_⟩
      rw [hnphone, hv]
  have hc2 : contacts2Of ⟨s.contacts ++ [n], s.nextId + 1⟩ now2 E P =
      s.contacts ++ [n] := by
    unfold contacts2Of
    rw [if_neg hnocreate]
    exact hdemoted
  have hn2 : nextId2Of ⟨s.contacts ++ [n], s.nextId + 1⟩ E P = s.nextId + 1 := by
    unfold nextId2Of
    rw [if_neg hnocreate]
  have hfinal : finalGroupOf ⟨s.contacts ++ [n], s.nextId + 1⟩ now2 E P = [n] := by
    unfold finalGroupOf
    rw [hc2, helect]
    exact hrooted2 _ rfl
  have hfresh : freshOf ⟨s.contacts ++ [n], s.nextId + 1⟩ now2 E P = n := by
    unfold freshOf
    rw [hfinal, helect]
    rw [List.find?_cons_of_pos _ (by simp)]
    rfl
  show identifyMerge ⟨s.contacts ++ [n], s.nextId + 1⟩ now2 E P =
    identifyNoMatch s now E P
  unfold identifyMerge identifyNoMatch
  rw [hfresh, hfinal, hc2, hn2]
  have hemails : projectValues n.email [n] Contact.email =
      (match E with | some v => [v] | none => []) := by
    rw [projectValues_spec (List.pairwise_singleton _ _) n.email Contact.email]
    have hne : n.email = E := rfl
    have hfm : [n].filterMap Contact.email =
        (match E with | some v => [v] | none => []) := by
      cases hEv : E with
      | none => simp [List.filterMap_cons, hne, hEv]
      | some v => simp [List.filterMap_cons, hne, hEv]
    rw [hfm, hne]
    cases hEv : E with
    | none => rfl
    | some v =>
      show v :: (if [v].any (fun w => rawDup w v) then dedupByR rawDup [v] []
        else v :: dedupByR rawDup (v :: [v]) []) = [v]
      rw [if_pos (by simp [rawDup])]
      rfl
  have hphones : projectValues n.phoneNumber [n] Contact.phoneNumber =
      (match P with | some v => [v] | none => []) := by
    rw [projectValues_spec (List.pairwise_singleton _ _) n.phoneNumber
      Contact.phoneNumber]
    have hnp : n.phoneNumber = P := rfl
    have hfm : [n].filterMap Contact.phoneNumber =
        (match P with | some v => [v] | none => []) := by
      cases hPv : P with
      | none => simp [List.filterMap_cons, hnp, hPv]
      | some v => simp [List.filterMap_cons, hnp, hPv]
    rw [hfm, hnp]
    cases hPv : P with
    | none => rfl
    | some v =>
      show v :: (if [v].any (fun w => rawDup w v) then dedupByR rawDup [v] []
        else v :: dedupByR rawDup (v :: [v]) []) = [v]
      rw [if_pos (by simp [rawDup])]
      rfl
  have hsec : projectSecondaryIds [n] n.id = [] := by
    unfold projectSecondaryIds
    rw [List.filter_cons_of_neg
      (by simp only [decide_eq_true_eq]; exact fun hcon => nomatch hcon.1),
      List.filter_nil]
    rfl
  rw [hemails, hphones, hsec]
  rfl



section MergeIdem

variable {s : Store} {now : Nat} {e p : Option String}

theorem matchesInput_dmFun {ids : List Nat} {pid : Nat} {c : Contact} :
    matchesInput e p (dmFun ids pid c) ↔ matchesInput e p c := by
  unfold matchesInput
  rw [dmFun_email, dmFun_phone]

theorem eq_of_created_eq {contacts : List Contact}
    (h : (contacts.map Contact.createdAt).Nodup) {a b : Contact}
    (ha : a ∈ contacts) (hb : b ∈ contacts) (hcre : a.createdAt = b.createdAt) :
    a = b :=
  List.inj_on_of_nodup_map h ha hb hcre

/-- Reachability in the post-merge store is confined to the demoted image
of the resolved group together with the new row. -/
theorem merge_reach_g (hnodup : (s.contacts.map Contact.id).Nodup)
    {y d : Contact}
    (hy : (∃ d0 ∈ resolveGroup s.contacts e p,
        y = dmFun (demIds s e p) (electOf s.contacts e p).id d0) ∨
      y = newSecondary s now e p)
    (hreach : reaches (contacts2Of s now e p) y d) :
    (∃ d0 ∈ resolveGroup s.contacts e p,
      d = dmFun (demIds s e p) (electOf s.contacts e p).id d0) ∨
      d = newSecondary s now e p := by
  refine @reaches_invariant (contacts2Of s now e p)
    (fun z => (∃ d0 ∈ resolveGroup s.contacts e p,
      z = dmFun (demIds s e p) (electOf s.contacts e p).id d0) ∨
      z = newSecondary s now e p) ?_ _ _ hy hreach
  rintro a (⟨a0, ha0g, rfl⟩ | rfl) b hb
  · rcases mem_contacts2.mp hb.1 with ⟨b0, hb0, rfl⟩ | ⟨-, rfl⟩
    · left
      refine ⟨b0, ?_, rfl⟩
      have hshares : sharesValue a0 b0 :=
        (sharesValue_dmFun_iff _ _ _ _).mp hb.2.2
      have hb0live : b0.deletedAt = none := by
        have := hb.2.1; rw [dmFun_deletedAt] at this; exact this
      exact resolveGroup_closed hnodup a0 ha0g b0 ⟨hb0, hb0live, hshares⟩
    · exact Or.inr rfl
  · rcases mem_contacts2.mp hb.1 with ⟨b0, hb0, rfl⟩ | ⟨-, rfl⟩
    · left
      refine ⟨b0, ?_, rfl⟩
      have hb0live : b0.deletedAt = none := by
        have := hb.2.1; rw [dmFun_deletedAt] at this; exact this
      exact shares_newSecondary hb.2.2 rfl hb0 hb0live
    · exact Or.inr rfl

/-- The post-merge rows still have duplicate-free ids. -/
theorem contacts2_ids_nodup (Hid : (s.contacts.map Contact.id).Nodup)
    (Hlt : ∀ c ∈ s.contacts, c.id < s.nextId) :
    ((contacts2Of s now e p).map Contact.id).Nodup := by
  have hmap : ((s.contacts.map
      (dmFun (demIds s e p) (electOf s.contacts e p).id)).map Contact.id) =
      s.contacts.map Contact.id := by
    rw [List.map_map]
    exact List.map_congr_left (fun c _ => dmFun_id _ _ c)
  unfold contacts2Of
  split
  · rw [demotedOf_eq_map, List.map_append, hmap]
    rw [List.nodup_append]
    refine ⟨Hid, List.nodup_singleton _, ?_⟩
    intro i hi hi2
    rcases List.mem_map.mp hi with ⟨c, hc, rfl⟩
    have h1 : c.id < s.nextId := Hlt c hc
    have h2 : c.id = s.nextId := by
      rcases List.mem_map.mp hi2 with ⟨d, hd, hdid⟩
      rw [List.mem_singleton.mp hd] at hdid
      exact hdid.symm
    omega
  · rw [demotedOf_eq_map, hmap]
    exact Hid

/-- The post-merge rows still have duplicate-free creation stamps. -/
theorem contacts2_created_nodup (Hcre : (s.contacts.map Contact.createdAt).Nodup)
    (Hnow : ∀ c ∈ s.contacts, c.createdAt < now) :
    ((contacts2Of s now e p).map Contact.createdAt).Nodup := by
  have hmap : ((s.contacts.map
      (dmFun (demIds s e p) (electOf s.contacts e p).id)).map Contact.createdAt) =
      s.contacts.map Contact.createdAt := by
    rw [List.map_map]
    exact List.map_congr_left (fun c _ => dmFun_createdAt _ _ c)
  unfold contacts2Of
  split
  · rw [demotedOf_eq_map, List.map_append, hmap]
    rw [List.nodup_append]
    refine ⟨Hcre, List.nodup_singleton _, ?_⟩
    intro t ht ht2
    rcases List.mem_map.mp ht with ⟨c, hc, rfl⟩
    have h1 : c.createdAt < now := Hnow c hc
    have h2 : c.createdAt = now := by
      rcases List.mem_map.mp ht2 with ⟨d, hd, hdc⟩
      rw [List.mem_singleton.mp hd] at hdc
      exact hdc.symm
    omega
  · rw [demotedOf_eq_map, hmap]
    exact Hcre

end MergeIdem



/-- After a merge-branch run, re-running the transaction with the same input
changes nothing and returns the same response. -/
theorem idem_merge {s : Store} {now now2 : Nat} {input : IdRequest}
    (Hid : (s.contacts.map Contact.id).Nodup)
    (Hlt : ∀ c ∈ s.contacts, c.id < s.nextId)
    (Hcre : (s.contacts.map Contact.createdAt).Nodup)
    (Hnow : ∀ c ∈ s.contacts, c.createdAt < now)
    (Hvalid : ¬ (normalizeEmail input.email = none ∧
      normalizePhone input.phoneNumber = none))
    (hseed : seedMatches s.contacts (normalizeEmail input.email)
      (normalizePhone input.phoneNumber) ≠ []) :
    identifyTx (identifyTx s now input).2 now2 input = identifyTx s now input := by
  set E := normalizeEmail input.email with hE
  set P := normalizePhone input.phoneNumber with hP
  have Hvalid' : ¬ (E = none ∧ P = none) := by
    rw [hE, hP]; exact Hvalid
  have htx1 : identifyTx s now input = identifyMerge s now E P := by
    rw [identifyTx_cases, ← hE, ← hP, if_neg hseed]
  have hid2 : ((contacts2Of s now E P).map Contact.id).Nodup :=
    contacts2_ids_nodup Hid Hlt
  -- the demoted image of any first-run seed match is a second-run seed match
  have hseeddm : ∀ m ∈ seedMatches s.contacts E P,
      dmFun (demIds s E P) (electOf s.contacts E P).id m ∈
        seedMatches (contacts2Of s now E P) E P := by
    intro m hm
    rcases mem_seedMatches.mp hm with ⟨hms, hmlive, hmm⟩
    refine mem_seedMatches.mpr ⟨mem_contacts2.mpr (Or.inl ⟨m, hms, rfl⟩), ?_, ?_⟩
    · rw [dmFun_deletedAt]; exact hmlive
    · exact matchesInput_dmFun.mpr hmm
  have hseedne2 : seedMatches (contacts2Of s now E P) E P ≠ [] := by
    rcases List.exists_mem_of_ne_nil _ hseed with ⟨m, hm⟩
    intro hnil
    have := hseeddm m hm
    rw [hnil] at this
    cases this
  -- forward: the second-run resolved group is confined to the demoted image
  -- of the first-run group plus the possibly created secondary
  have hfwd : ∀ x ∈ resolveGroup (contacts2Of s now E P) E P,
      (∃ d0 ∈ resolveGroup s.contacts E P,
        x = dmFun (demIds s E P) (electOf s.contacts E P).id d0) ∨
      x = newSecondary s now E P := by
    intro x hx
    rcases (resolveGroup_component hid2 x).mp hx with ⟨m, hm, hr⟩
    rcases mem_seedMatches.mp hm with ⟨hmC2, hmlive, hmm⟩
    rcases mem_contacts2.mp hmC2 with ⟨c0, hc0, hmeq⟩ | ⟨hdc, hmeq⟩
    · subst hmeq
      refine merge_reach_g Hid (Or.inl ⟨c0, ?_, rfl⟩) hr
      apply expandLoop_supset
      refine mem_seedMatches.mpr ⟨hc0, ?_, ?_⟩
      · rw [dmFun_deletedAt] at hmlive; exact hmlive
      · exact matchesInput_dmFun.mp hmm
    · subst hmeq
      exact merge_reach_g Hid (Or.inr rfl) hr
  -- backward: the demoted image of the first-run group survives into the
  -- second-run resolved group
  have hback : ∀ d0 ∈ resolveGroup s.contacts E P,
      dmFun (demIds s E P) (electOf s.contacts E P).id d0 ∈
        resolveGroup (contacts2Of s now E P) E P := by
    intro d0 hd0
    rcases (resolveGroup_component Hid d0).mp hd0 with ⟨m0, hm0, hr0⟩
    have hm0' := hseeddm m0 hm0
    have hrmap : reaches (s.contacts.map (dmFun (demIds s E P)
        (electOf s.contacts E P).id))
        (dmFun (demIds s E P) (electOf s.contacts E P).id m0)
        (dmFun (demIds s E P) (electOf s.contacts E P).id d0) :=
      reaches_map_dmFun hr0
    have hrC2 : reaches (contacts2Of s now E P)
        (dmFun (demIds s E P) (electOf s.contacts E P).id m0)
        (dmFun (demIds s E P) (electOf s.contacts E P).id d0) := by
      unfold contacts2Of
      rw [demotedOf_eq_map]
      split
      · exact reaches_append hrmap
      · exact hrmap
    exact (resolveGroup_component hid2 _).mpr ⟨_, hm0', hrC2⟩
  have hps : electOf s.contacts E P ∈ s.contacts :=
    ((resolveGroup_subLive s.contacts E P) _ (elect_mem hseed)).1
  -- the second-run election returns the same primary
  have helect2 : electOf (contacts2Of s now E P) E P = electOf s.contacts E P := by
    have hprimG2 : dmFun (demIds s E P) (electOf s.contacts E P).id
        (electOf s.contacts E P) ∈ resolveGroup (contacts2Of s now E P) E P :=
      hback _ (elect_mem hseed)
    rw [dm_elect] at hprimG2
    have hmin2 := elect_min hseedne2 _ hprimG2
    rcases hfwd _ (elect_mem hseedne2) with ⟨d0, hd0G, he2eq⟩ | he2new
    · have h1 : (electOf s.contacts E P).createdAt ≤ d0.createdAt :=
        elect_min hseed d0 hd0G
      have h2 : (electOf (contacts2Of s now E P) E P).createdAt = d0.createdAt := by
        rw [he2eq, dmFun_createdAt]
      have hd0s : d0 ∈ s.contacts :=
        ((resolveGroup_subLive s.contacts E P) d0 hd0G).1
      have hde : d0 = electOf s.contacts E P :=
        eq_of_created_eq Hcre hd0s hps (by omega)
      rw [he2eq, hde]
      exact dm_elect
    · exfalso
      have h3 : (electOf (contacts2Of s now E P) E P).createdAt = now := by
        rw [he2new]
        rfl
      have h4 := Hnow _ hps
      omega
  -- nothing is left to demote in the second run
  have hothers2 : otherPrimaries (resolveGroup (contacts2Of s now E P) E P)
      (electOf s.contacts E P) = [] := by
    unfold otherPrimaries
    apply List.filter_eq_nil_iff.mpr
    intro x hx
    simp only [decide_eq_true_eq, not_and]
    intro hxid hxprim
    rcases hfwd x hx with ⟨d0, hd0G, rfl⟩ | rfl
    · have hd0s : d0 ∈ s.contacts :=
        ((resolveGroup_subLive s.contacts E P) d0 hd0G).1
      rcases primary_after_dm Hid hd0s hxprim with ⟨-, hcase⟩
      rcases hcase with hde | hout
      · apply hxid
        rw [hde, dm_elect]
      · exact hout hd0G
    · cases hxprim
  have hdemoted2 : demotedOf (contacts2Of s now E P) E P =
      contacts2Of s now E P := by
    unfold demotedOf
    rw [helect2, hothers2, List.map_nil]
    exact demoteIds_nil _ _
  have hexistE2 : existEOf (contacts2Of s now E P) E P =
      (rootedGroup (contacts2Of s now E P) (electOf s.contacts E P).id).filterMap
        (fun c => normalizeEmail c.email) := by
    unfold existEOf
    rw [hdemoted2, helect2]
  have hexistP2 : existPOf (contacts2Of s now E P) E P =
      (rootedGroup (contacts2Of s now E P) (electOf s.contacts E P).id).filterMap
        (fun c => normalizePhone c.phoneNumber) := by
    unfold existPOf
    rw [hdemoted2, helect2]
  -- the second run never creates a row
  have hnocreate2 : ¬ doCreateOf (contacts2Of s now E P) E P := by
    by_cases hdc : doCreateOf s.contacts E P
    · -- the secondary created by the first run already covers the request
      have hnFG : newSecondary s now E P ∈
          rootedGroup (contacts2Of s now E P) (electOf s.contacts E P).id :=
        mem_rootedGroup.mpr
          ⟨mem_contacts2.mpr (Or.inr ⟨hdc, rfl⟩), rfl, Or.inr rfl⟩
      rintro (⟨v, hv, hnot⟩ | ⟨v, hv, hnot⟩)
      · rw [hexistE2] at hnot
        apply hnot
        refine List.mem_filterMap.mpr ⟨newSecondary s now E P, hnFG, ?_⟩
        show normalizeEmail E = some v
        rw [hE, normalizeEmail_idem input.email, ← hE, hv]
      · rw [hexistP2] at hnot
        apply hnot
        refine List.mem_filterMap.mpr ⟨newSecondary s now E P, hnFG, ?_⟩
        show normalizePhone P = some v
        rw [hP, normalizePhone_idem input.phoneNumber, ← hP, hv]
    · -- no creation in the first run: the rooted groups coincide
      have hc2eq : contacts2Of s now E P = demotedOf s.contacts E P := by
        unfold contacts2Of
        rw [if_neg hdc]
      have hlistE : existEOf (contacts2Of s now E P) E P =
          existEOf s.contacts E P := by
        unfold existEOf
        rw [hdemoted2, helect2, hc2eq]
      have hlistP : existPOf (contacts2Of s now E P) E P =
          existPOf s.contacts E P := by
        unfold existPOf
        rw [hdemoted2, helect2, hc2eq]
      intro h2
      apply hdc
      show shouldCreateSecondary E P (existEOf s.contacts E P)
        (existPOf s.contacts E P)
      rw [← hlistE, ← hlistP]
      exact h2
  -- the second-run staged computations collapse onto the first-run store
  have hc2' : contacts2Of ⟨contacts2Of s now E P, nextId2Of s E P⟩ now2 E P =
      contacts2Of s now E P := by
    show (if doCreateOf (contacts2Of s now E P) E P
        then demotedOf (contacts2Of s now E P) E P ++
          [newSecondary ⟨contacts2Of s now E P, nextId2Of s E P⟩ now2 E P]
        else demotedOf (contacts2Of s now E P) E P) = contacts2Of s now E P
    rw [if_neg hnocreate2]
    exact hdemoted2
  have hn2' : nextId2Of ⟨contacts2Of s now E P, nextId2Of s E P⟩ E P =
      nextId2Of s E P := by
    show (if doCreateOf (contacts2Of s now E P) E P
        then nextId2Of s E P + 1 else nextId2Of s E P) = nextId2Of s E P
    rw [if_neg hnocreate2]
  have hfinal' : finalGroupOf ⟨contacts2Of s now E P, nextId2Of s E P⟩ now2 E P =
      finalGroupOf s now E P := by
    show rootedGroup
        (contacts2Of ⟨contacts2Of s now E P, nextId2Of s E P⟩ now2 E P)
        (electOf (contacts2Of s now E P) E P).id = finalGroupOf s now E P
    rw [hc2', helect2]
    rfl
  have hfresh' : freshOf ⟨contacts2Of s now E P, nextId2Of s E P⟩ now2 E P =
      freshOf s now E P := by
    show ((finalGroupOf ⟨contacts2Of s now E P, nextId2Of s E P⟩ now2 E P).find?
        (fun c => decide (c.id = (electOf (contacts2Of s now E P) E P).id))).getD
        (electOf (contacts2Of s now E P) E P) = freshOf s now E P
    rw [hfinal', helect2]
    rfl
  have hS1 : (identifyTx s now input).2 =
      (⟨contacts2Of s now E P, nextId2Of s E P⟩ : Store) := by
    rw [htx1]
    rfl
  have htx2 : identifyTx ⟨contacts2Of s now E P, nextId2Of s E P⟩ now2 input =
      identifyMerge ⟨contacts2Of s now E P, nextId2Of s E P⟩ now2 E P := by
    rw [identifyTx_cases, ← hE, ← hP, if_neg hseedne2]
  rw [hS1, htx1, htx2]
  unfold identifyMerge
  rw [hfresh', hfinal', hc2', hn2']

/-- C3: the reconcile transaction is idempotent. On any store whose rows have
duplicate-free ids and creation stamps, ids below the allocation counter, and
creation stamps before the call time (all properties of stores the service
itself produces), a second run with the same input leaves the store unchanged
and returns the same response as the first run. -/
theorem c3_idempotent (s : Store) (now now2 : Nat) (input : IdRequest)
    (Hid : (s.contacts.map Contact.id).Nodup)
    (Hlt : ∀ c ∈ s.contacts, c.id < s.nextId)
    (Hlink : ∀ c ∈ s.contacts, ∀ j, c.linkedId = some j → j < s.nextId)
    (Hcre : (s.contacts.map Contact.createdAt).Nodup)
    (Hnow : ∀ c ∈ s.contacts, c.createdAt < now)
    (Hvalid : ¬ (normalizeEmail input.email = none ∧
      normalizePhone input.phoneNumber = none)) :
    identifyTx (identifyTx s now input).2 now2 input = identifyTx s now input := by
  by_cases hseed : seedMatches s.contacts (normalizeEmail input.email)
      (normalizePhone input.phoneNumber) = []
  · exact idem_noMatch Hlt Hlink Hvalid hseed
  · exact idem_merge Hid Hlt Hcre Hnow Hvalid hseed

/-- Witness for C3: a fresh store, a create-then-match round trip. -/
theorem c3_witness :
    identifyTx (identifyTx ⟨[], 1⟩ 1 ⟨some "a", some "12"⟩).2 2
        ⟨some "a", some "12"⟩ =
      identifyTx ⟨[], 1⟩ 1 ⟨some "a", some "12"⟩ :=
  c3_idempotent ⟨[], 1⟩ 1 2 ⟨some "a", some "12"⟩ (by decide)
    (fun c hc => nomatch hc) (fun c hc => nomatch hc) (by decide)
    (fun c hc => nomatch hc) (by decide)


end IdentitySvc
